import Mathlib

/-!
Verification development for the taipy core: the standalone job dispatcher
(`taipy/core/_orchestrator/_dispatcher/_standalone_job_dispatcher.py`) and the
pipeline DAG builder / validator / scheduler (`taipy/core/pipeline/pipeline.py`).

Python dictionaries are embedded as insertion-ordered association lists
(`dictInsert` reassigns in place on an existing key, appends otherwise, exactly
as a Python dict does).  The dispatcher is embedded as an explicit state
machine whose events are job dispatch, future completion and global
configuration mutation; an observation trace records the order in which the
completion continuations fire.
-/

namespace Taipy

/-! ## Insertion-ordered dictionaries (Python `dict` semantics) -/

/-- Assignment `d[k] = v` on a Python dict: if the key is present, the value is
replaced in place (the key keeps its original position); otherwise the pair is
appended at the end. -/
def dictInsert {α : Type} (d : List (String × α)) (k : String) (v : α) :
    List (String × α) :=
  if d.any (fun p => p.1 == k) then
    d.map (fun p => if p.1 == k then (k, v) else p)
  else d ++ [(k, v)]

/-- Lookup `d.get(k)` on a Python dict. -/
def dictLookup {α : Type} (d : List (String × α)) (k : String) : Option α :=
  (d.find? (fun p => p.1 == k)).map Prod.snd

/-- Removal `d.pop(k, default)` on a Python dict: every binding of `k` is
removed (there is at most one in a genuine dict). -/
def dictPop {α : Type} (d : List (String × α)) (k : String) :
    List (String × α) :=
  d.filter (fun p => !(p.1 == k))

/-! ## Data model for the dispatcher -/

/-- A `DataNode`: an identified placeholder for a value. -/
structure DataNode where
  id : String
deriving DecidableEq, Repr

/-- A `Task`: a configuration identity, a function reference, and the values of
its named input / output `DataNode` mappings (`task.input.values()`,
`task.output.values()` in insertion order). -/
structure Task where
  config_id : String
  fn : String
  input : List DataNode
  output : List DataNode
deriving DecidableEq, Repr

/-- A `Job`: one invocation of a `Task`, with an identity. -/
structure Job where
  id : String
  task : Task
deriving DecidableEq, Repr

/-- Job status values; terminal states per the data model. -/
inductive JobStatus where
  | submitted
  | running
  | completed
  | failed
  | canceled
  | skipped
  | abandoned
deriving DecidableEq, Repr

/-- The mutable record the dispatcher keeps for a job: status plus error list. -/
structure JobInfo where
  status : JobStatus
  errors : List String
deriving DecidableEq, Repr

/-- The result marshaled back from a worker process: either success or a
captured error. -/
inductive ExecResult where
  | success
  | failure (err : String)
deriving DecidableEq, Repr

/-- A completion continuation attached to a future with `add_done_callback`. -/
inductive Callback where
  | releaseWorker
  | updateJobStatusFromFuture (job : Job)
deriving DecidableEq, Repr

/-- The in-flight execution handle returned by `executor.submit`: it carries the
`_TaskFunctionWrapper(job.id, job.task)` payload, the serialized configuration
snapshot passed as `config_as_string`, and the list of done-callbacks in
registration order. -/
structure Future where
  wrapper_job_id : String
  wrapper_task : Task
  config_as_string : String
  callbacks : List Callback
deriving DecidableEq, Repr

/-- Observable side effects of the completion continuations, in the order they
occur. -/
inductive TraceEvent where
  | slotReleased (jobId : String)
  | handleRemoved (jobId : String)
  | statusUpdated (jobId : String)
deriving DecidableEq, Repr

/-- The dispatcher state: the global applied configuration
(`Config._applied_config`), the available-worker counter
(`self._nb_available_workers`, a Python int), the configured pool size, the
in-flight handle table (`self._dispatched_processes`), the job records, and the
observation trace. -/
structure DispatcherState where
  applied_config : String
  nb_available_workers : Int
  max_workers : Nat
  dispatched_processes : List (String × Future)
  jobs : List (String × JobInfo)
  trace : List TraceEvent
deriving DecidableEq, Repr

/-- Constructor `_StandaloneJobDispatcher.__init__`: the pool size is
`Config.job_config.max_nb_of_workers or 1` (Python `or`: `None` and `0` are
falsy), and `_nb_available_workers` starts at the pool size. -/
def initState (maxNbOfWorkers : Option Nat) (cfg : String) : DispatcherState :=
  let mw : Nat :=
    match maxNbOfWorkers with
    | none => 1
    | some 0 => 1
    | some n => n
  { applied_config := cfg
    nb_available_workers := (mw : Int)
    max_workers := mw
    dispatched_processes := []
    jobs := []
    trace := [] }

/-- Source `_can_execute`: true iff `self._nb_available_workers > 0`. -/
def DispatcherState.can_execute (s : DispatcherState) : Bool :=
  s.nb_available_workers > 0

/-- Source `_is_dispatched`: `job_id in self._dispatched_processes.keys()`. -/
def DispatcherState.is_dispatched (s : DispatcherState) (jobId : String) : Bool :=
  (dictLookup s.dispatched_processes jobId).isSome

/-- Source `_dispatch(job)`, with `serialize` standing for
`_TomlSerializer()._serialize`: decrement the worker counter, serialize the
current applied configuration, submit the task wrapper together with the
snapshot to the executor obtaining a future, register the future under the job
id, then attach the two done-callbacks in registration order:
`_release_worker` first, `partial(_update_job_status_from_future, job)` second. -/
def dispatch (serialize : String → String) (s : DispatcherState) (job : Job) :
    DispatcherState :=
  let config_as_string := serialize s.applied_config
  let future : Future :=
    { wrapper_job_id := job.id
      wrapper_task := job.task
      config_as_string := config_as_string
      callbacks := [Callback.releaseWorker, Callback.updateJobStatusFromFuture job] }
  { s with
    nb_available_workers := s.nb_available_workers - 1
    dispatched_processes := dictInsert s.dispatched_processes job.id future }

/-- Modelled from the spec: the base-class `_JobDispatcher._update_job_status`
(not part of the sources at hand) records the worker result on the job: a
success yields the terminal COMPLETED status, a worker failure yields the
terminal FAILED status with the captured error attached to the job's error
list, and it does not interrupt the dispatcher. -/
def update_job_status (jobs : List (String × JobInfo)) (jobId : String)
    (res : ExecResult) : List (String × JobInfo) :=
  let old := (dictLookup jobs jobId).getD { status := JobStatus.running, errors := [] }
  match res with
  | ExecResult.success =>
      dictInsert jobs jobId { status := JobStatus.completed, errors := old.errors }
  | ExecResult.failure e =>
      dictInsert jobs jobId { status := JobStatus.failed, errors := old.errors ++ [e] }

/-- Run one completion continuation.  `_release_worker` increments the worker
counter; `_update_job_status_from_future` pops the handle from the table and
then updates the job record from the worker result. -/
def runCallback (res : ExecResult) (jobId : String) (s : DispatcherState)
    (cb : Callback) : DispatcherState :=
  match cb with
  | Callback.releaseWorker =>
      { s with
        nb_available_workers := s.nb_available_workers + 1
        trace := s.trace ++ [TraceEvent.slotReleased jobId] }
  | Callback.updateJobStatusFromFuture job =>
      { s with
        dispatched_processes := dictPop s.dispatched_processes job.id
        jobs := update_job_status s.jobs job.id res
        trace := s.trace ++ [TraceEvent.handleRemoved job.id,
                             TraceEvent.statusUpdated job.id] }

/-- An event of the dispatcher state machine. -/
inductive Event where
  | dispatchJob (job : Job)
  | complete (jobId : String) (res : ExecResult)
  | mutateConfig (c : String)
deriving DecidableEq, Repr

/-- One step of the state machine.  A completion event fires the future's
done-callbacks in registration order. -/
def step (serialize : String → String) (s : DispatcherState) : Event → DispatcherState
  | Event.dispatchJob job => dispatch serialize s job
  | Event.complete jobId res =>
      match dictLookup s.dispatched_processes jobId with
      | some f => f.callbacks.foldl (runCallback res jobId) s
      | none => s
  | Event.mutateConfig c => { s with applied_config := c }

/-- The precondition under which an event may occur: a dispatch requires an
available worker and that the job is not already dispatched; a completion is
only delivered for a live future. -/
def validEvent (s : DispatcherState) : Event → Prop
  | Event.dispatchJob job =>
      s.can_execute = true ∧ s.is_dispatched job.id = false
  | Event.complete jobId _ => s.is_dispatched jobId = true
  | Event.mutateConfig _ => True

instance (s : DispatcherState) (e : Event) : Decidable (validEvent s e) := by
  cases e <;> simp only [validEvent] <;> infer_instance

/-- A sequence of events each valid in the state it fires from. -/
def ValidFrom (serialize : String → String) :
    DispatcherState → List Event → Prop
  | _, [] => True
  | s, e :: es => validEvent s e ∧ ValidFrom serialize (step serialize s e) es

/-- Run a sequence of events. -/
def run (serialize : String → String) (s : DispatcherState)
    (es : List Event) : DispatcherState :=
  es.foldl (step serialize) s

instance instDecidableValidFrom (serialize : String → String) :
    (s : DispatcherState) → (es : List Event) → Decidable (ValidFrom serialize s es)
  | _, [] => isTrue trivial
  | s, e :: es =>
      haveI : Decidable (ValidFrom serialize (step serialize s e) es) :=
        instDecidableValidFrom serialize (step serialize s e) es
      instDecidableAnd

/-- Modelled from the spec: the driver loop of the base-class
`_JobDispatcher.run` (not part of the sources at hand) repeatedly obtains a
ready job and, only while `can_execute()` is true, calls `dispatch`; when no
worker is available the job is deferred, staying in the queue — backpressure,
not an error. -/
def driver_loop_step (serialize : String → String) (s : DispatcherState)
    (queue : List Job) : DispatcherState × List Job :=
  match queue with
  | [] => (s, [])
  | j :: rest =>
      if s.can_execute then (dispatch serialize s j, rest) else (s, j :: rest)

/-! Concrete entities used by the witnesses. -/

def exDataNodeA : DataNode := { id := "a" }

def exDataNodeB : DataNode := { id := "b" }

def exTask1 : Task :=
  { config_id := "t1", fn := "f1", input := [exDataNodeA], output := [exDataNodeB] }

def exJob1 : Job := { id := "JOB_1", task := exTask1 }

def exJob2 : Job := { id := "JOB_2", task := exTask1 }

def exState0 : DispatcherState := initState (some 2) "cfg"

def exState1 : DispatcherState :=
  step (fun c => c) exState0 (Event.dispatchJob exJob1)

def exFuture1 : Future :=
  { wrapper_job_id := "JOB_1", wrapper_task := exTask1, config_as_string := "cfg",
    callbacks := [Callback.releaseWorker,
                  Callback.updateJobStatusFromFuture exJob1] }

/-! ## Data model for pipelines: graph, generations, consistency

`Pipeline.__build_dag` builds an `nx.DiGraph` whose nodes are `DataNode`s and
`Task`s; `add_edges_from` inserts the endpoints (in insertion order, once each)
and the edge (once). -/

/-- A node of the dependency graph: either a `DataNode` or a `Task`. -/
inductive Node where
  | dataNode (d : DataNode)
  | task (t : Task)
deriving DecidableEq, Repr

def Node.isTask : Node → Bool
  | Node.task _ => true
  | Node.dataNode _ => false

def Node.isDataNode : Node → Bool
  | Node.dataNode _ => true
  | Node.task _ => false

/-- A directed graph as networkx keeps it: nodes in insertion order (no
duplicates), edges in insertion order (no duplicates). -/
structure Graph where
  nodes : List Node
  edges : List (Node × Node)
deriving DecidableEq, Repr

/-- Call `graph.add_node(n)`: a no-op when the node is already present. -/
def addNode (g : Graph) (n : Node) : Graph :=
  if n ∈ g.nodes then g else { g with nodes := g.nodes ++ [n] }

/-- Call `graph.add_edges_from([(u, v)])`: inserts missing endpoints, then the edge
if not already present. -/
def addEdge (g : Graph) (u v : Node) : Graph :=
  let g1 := addNode (addNode g u) v
  if (u, v) ∈ g1.edges then g1 else { g1 with edges := g1.edges ++ [(u, v)] }

/-- Loop `for predecessor in task.input.values(): graph.add_edges_from([(predecessor, task)])`. -/
def addInputEdges (g : Graph) (t : Task) : Graph :=
  t.input.foldl
    (fun g0 predecessor => addEdge g0 (Node.dataNode predecessor) (Node.task t)) g

/-- Loop `for successor in task.output.values(): graph.add_edges_from([(task, successor)])`. -/
def addOutputEdges (g : Graph) (t : Task) : Graph :=
  t.output.foldl
    (fun g0 successor => addEdge g0 (Node.task t) (Node.dataNode successor)) g

/-- The loop body of `Pipeline.__build_dag` for one task: an edge from each
input DataNode to the task, an edge from the task to each output DataNode, and
the task as an isolated node when it has neither. -/
def addTaskToDag (g : Graph) (t : Task) : Graph :=
  if t.input.isEmpty && t.output.isEmpty then
    addNode (addOutputEdges (addInputEdges g t) t) (Node.task t)
  else addOutputEdges (addInputEdges g t) t

/-- Source `Pipeline.__build_dag`: the loop over `self._tasks.values()`. -/
def buildDag (tasks : List Task) : Graph :=
  tasks.foldl addTaskToDag { nodes := [], edges := [] }

/-- One generation of Kahn peeling (`nx.topological_generations`): the
remaining nodes with no predecessor among the remaining nodes. -/
def nextGen (remaining : List Node) (edges : List (Node × Node)) : List Node :=
  remaining.filter (fun n => decide (∀ e ∈ edges, e.1 ∈ remaining → e.2 ≠ n))

/-- Kahn peeling with fuel (the fuel is always at least the number of
remaining nodes, so exhaustion only happens on a cycle, where
`nx.topological_generations` raises `NetworkXUnfeasible`). -/
def topoGensAux (edges : List (Node × Node)) :
    Nat → List Node → Option (List (List Node))
  | _, [] => some []
  | 0, _ :: _ => none
  | fuel + 1, n :: rest =>
      let remaining := n :: rest
      let gen := nextGen remaining edges
      if gen.isEmpty then none
      else
        match topoGensAux edges fuel
          (remaining.filter (fun m => decide (m ∉ gen))) with
        | none => none
        | some gens => some (gen :: gens)

/-- Call `nx.topological_generations` on the whole graph; `none` models the
`NetworkXUnfeasible` exception raised on a cyclic graph. -/
def topoGens (g : Graph) : Option (List (List Node)) :=
  topoGensAux g.edges g.nodes.length g.nodes

/-- Call `nx.is_directed_acyclic_graph`: networkx decides acyclicity by attempting a
topological sort, which fails exactly when Kahn peeling gets stuck. -/
def is_directed_acyclic_graph (g : Graph) : Bool :=
  (topoGens g).isSome

/-- The alternation loop of `Pipeline.__is_consistent`: generation 0 must hold
only `DataNode`s, generation 1 only `Task`s, and so on, flipping the
`is_data_node` flag between generations. -/
def altCheck : Bool → List (List Node) → Bool
  | _, [] => true
  | is_data_node, gen :: rest =>
      (gen.all fun node => if is_data_node then node.isDataNode else node.isTask) &&
        altCheck (!is_data_node) rest

/-- Source `Pipeline.__is_consistent`: false on a cyclic graph, otherwise the
alternation check over the topological generations. -/
def is_consistent_check (tasks : List Task) : Bool :=
  let dag := buildDag tasks
  if !(is_directed_acyclic_graph dag) then false
  else
    match topoGens dag with
    | none => false
    | some gens => altCheck true gens

/-- Comprehension `{task.config_id: task for task in tasks}`: the insertion-ordered dict of
the pipeline constructor and of the `tasks` setter. -/
def tasksDict (tasks : List Task) : List (String × Task) :=
  tasks.foldl (fun d t => dictInsert d t.config_id t) []

/-- The `Pipeline` entity: its task mapping keyed by task `config_id` and the
consistency flag computed once at construction. -/
structure Pipeline where
  config_id : String
  tasks : List (String × Task)
  is_consistent : Bool
deriving DecidableEq, Repr

/-- Constructor `Pipeline.__init__`: builds `_tasks = {task.config_id: task for task in
tasks}` and stores `is_consistent = self.__is_consistent()`; the validation is
total — a violation is only recorded in the flag, never raised. -/
def mkPipeline (config_id : String) (tasks : List Task) : Pipeline :=
  let d := tasksDict tasks
  { config_id := config_id
    tasks := d
    is_consistent := is_consistent_check (d.map Prod.snd) }

/-- Source `Pipeline.get_sorted_tasks`: the topological generations of the DAG,
keeping only the generations that contain at least one `Task`
(`if Task in (type(node) for node in nodes)`). -/
def get_sorted_tasks (tasks : List Task) : Option (List (List Node)) :=
  (topoGens (buildDag tasks)).map
    (fun gens => gens.filter (fun gen => gen.any Node.isTask))

def Pipeline.sorted_tasks (p : Pipeline) : Option (List (List Node)) :=
  get_sorted_tasks (p.tasks.map Prod.snd)

/-- The edge relation of a graph. -/
def edgeRel (g : Graph) (u v : Node) : Prop := (u, v) ∈ g.edges

/-- A directed cycle: some node reaches itself through one or more edges. -/
def HasCycle (g : Graph) : Prop := ∃ n : Node, Relation.TransGen (edgeRel g) n n

/-- Task `t` consumes an output of task `u`: some DataNode is among `u`'s
outputs and among `t`'s inputs. -/
def DependsOn (t u : Task) : Prop := ∃ d : DataNode, d ∈ u.output ∧ d ∈ t.input

/-- Every edge's endpoints are nodes of the graph. -/
def EdgesValid (g : Graph) : Prop :=
  ∀ e ∈ g.edges, e.1 ∈ g.nodes ∧ e.2 ∈ g.nodes

/-- The edges contributed to the DAG by one task. -/
def TaskEdge (t : Task) (e : Node × Node) : Prop :=
  (∃ d ∈ t.input, e = (Node.dataNode d, Node.task t)) ∨
  (∃ d ∈ t.output, e = (Node.task t, Node.dataNode d))

/-! More concrete entities for the pipeline witnesses. -/

def exTaskIso : Task := { config_id := "t2", fn := "f2", input := [], output := [] }

def exTaskCyc1 : Task :=
  { config_id := "c1", fn := "g1", input := [exDataNodeA], output := [exDataNodeB] }

def exTaskCyc2 : Task :=
  { config_id := "c2", fn := "g2", input := [exDataNodeB], output := [exDataNodeA] }

/-! ## Dictionary lemmas -/

theorem dict_any_iff {α : Type} (d : List (String × α)) (k : String) :
    (d.any fun p => p.1 == k) = true ↔ k ∈ d.map Prod.fst := by
  rw [List.any_eq_true]
  constructor
  · rintro ⟨p, hp, hk⟩
    exact List.mem_map.mpr ⟨p, hp, by simpa using hk⟩
  · intro h
    obtain ⟨p, hp, hk⟩ := List.mem_map.mp h
    exact ⟨p, hp, by simp [hk]⟩

theorem dictInsert_of_not_mem {α : Type} {d : List (String × α)} {k : String}
    (h : k ∉ d.map Prod.fst) (v : α) : dictInsert d k v = d ++ [(k, v)] := by
  unfold dictInsert
  rw [if_neg]
  intro hc
  exact h ((dict_any_iff d k).mp hc)

theorem dictLookup_eq_none {α : Type} (d : List (String × α)) (k : String) :
    dictLookup d k = none ↔ k ∉ d.map Prod.fst := by
  unfold dictLookup
  rw [Option.map_eq_none', List.find?_eq_none]
  constructor
  · intro hnone hmem
    obtain ⟨p, hp, hk⟩ := List.mem_map.mp hmem
    exact hnone p hp (by simp [hk])
  · intro h p hp hbeq
    exact h (List.mem_map.mpr ⟨p, hp, by simpa using hbeq⟩)

theorem dictLookup_mem {α : Type} {d : List (String × α)} {k : String} {v : α}
    (h : dictLookup d k = some v) : (k, v) ∈ d := by
  unfold dictLookup at h
  obtain ⟨p, hfind, hv⟩ := Option.map_eq_some'.mp h
  have hmem := List.mem_of_find?_eq_some hfind
  have hkey : p.1 = k := by simpa using List.find?_some hfind
  have hpv : p = (k, v) := by
    cases p
    simp_all
  rwa [hpv] at hmem

theorem dictLookup_isSome_iff {α : Type} (d : List (String × α)) (k : String) :
    (dictLookup d k).isSome = true ↔ k ∈ d.map Prod.fst := by
  constructor
  · intro h
    obtain ⟨v, hv⟩ := Option.isSome_iff_exists.mp h
    exact List.mem_map.mpr ⟨(k, v), dictLookup_mem hv, rfl⟩
  · intro h
    cases hl : dictLookup d k with
    | none => exact absurd ((dictLookup_eq_none d k).mp hl) (by simpa using h)
    | some v => rfl

theorem dictLookup_append_right {α : Type} {d : List (String × α)} {k : String}
    (h : k ∉ d.map Prod.fst) (v : α) :
    dictLookup (d ++ [(k, v)]) k = some v := by
  unfold dictLookup
  rw [List.find?_append]
  have hnone : d.find? (fun p => p.1 == k) = none := by
    have h1 := (dictLookup_eq_none d k).mpr h
    unfold dictLookup at h1
    exact Option.map_eq_none'.mp h1
  simp [hnone]

theorem dictLookup_append_ne {α : Type} (d : List (String × α)) {k k' : String}
    (h : k' ≠ k) (v : α) :
    dictLookup (d ++ [(k, v)]) k' = dictLookup d k' := by
  unfold dictLookup
  rw [List.find?_append]
  cases hfind : d.find? (fun p => p.1 == k') with
  | some p => simp
  | none =>
      have hne : (k == k') = false := by simpa using Ne.symm h
      simp [hne]

theorem dictPop_eq_self_of_not_mem {α : Type} {d : List (String × α)} {k : String}
    (h : k ∉ d.map Prod.fst) : dictPop d k = d := by
  unfold dictPop
  apply List.filter_eq_self.mpr
  intro p hp
  simp only [Bool.not_eq_true', beq_eq_false_iff_ne, ne_eq]
  intro hk
  exact h (List.mem_map.mpr ⟨p, hp, hk⟩)

theorem dictLookup_pop_self {α : Type} (d : List (String × α)) (k : String) :
    dictLookup (dictPop d k) k = none := by
  unfold dictLookup dictPop
  rw [Option.map_eq_none', List.find?_eq_none]
  intro p hp
  have h2 := (List.mem_filter.mp hp).2
  simpa using h2

theorem find?_filter_of_imp {α : Type} (l : List α) (q pr : α → Bool)
    (h : ∀ x, q x = true → pr x = true) :
    (l.filter pr).find? q = l.find? q := by
  induction l with
  | nil => rfl
  | cons a l ih =>
      by_cases hpr : pr a = true
      · rw [List.filter_cons_of_pos hpr]
        by_cases hq : q a = true
        · rw [List.find?_cons_of_pos _ hq, List.find?_cons_of_pos _ hq]
        · rw [List.find?_cons_of_neg _ hq, List.find?_cons_of_neg _ hq, ih]
      · have hq : ¬q a = true := fun hc => hpr (h a hc)
        rw [List.filter_cons_of_neg hpr, List.find?_cons_of_neg _ hq, ih]

theorem dictLookup_pop_ne {α : Type} (d : List (String × α)) {k k' : String}
    (h : k' ≠ k) : dictLookup (dictPop d k) k' = dictLookup d k' := by
  unfold dictLookup dictPop
  rw [find?_filter_of_imp]
  intro x hx
  have hxk : x.1 = k' := by simpa using hx
  simp [hxk, h]

theorem dictPop_length {α : Type} {d : List (String × α)} {k : String} {v : α}
    (hnodup : (d.map Prod.fst).Nodup) (h : dictLookup d k = some v) :
    d.length = (dictPop d k).length + 1 := by
  induction d with
  | nil => simp [dictLookup] at h
  | cons p rest ih =>
      simp only [List.map_cons, List.nodup_cons] at hnodup
      by_cases hk : p.1 = k
      · have hpop : dictPop (p :: rest) k = dictPop rest k := by
          unfold dictPop
          exact List.filter_cons_of_neg (by simp [hk])
        have hrest : dictPop rest k = rest :=
          dictPop_eq_self_of_not_mem (by rw [← hk]; exact hnodup.1)
        simp [hpop, hrest]
      · have hlook : dictLookup rest k = some v := by
          unfold dictLookup at h ⊢
          rwa [List.find?_cons_of_neg _ (by simp [hk])] at h
        have hpop : dictPop (p :: rest) k = p :: dictPop rest k := by
          unfold dictPop
          exact List.filter_cons_of_pos (by simp [hk])
        rw [hpop]
        simp [ih hnodup.2 hlook]

theorem dictLookup_map_reassign {α : Type} (d : List (String × α))
    {k k' : String} (h : k' ≠ k) (v : α) :
    dictLookup (d.map (fun p => if p.1 == k then (k, v) else p)) k' =
      dictLookup d k' := by
  induction d with
  | nil => rfl
  | cons p rest ih =>
      unfold dictLookup at ih ⊢
      by_cases hk : p.1 = k
      · have hhead : (if (p.1 == k) = true then (k, v) else p) = (k, v) := by
          simp [hk]
        rw [List.map_cons, hhead,
          List.find?_cons_of_neg _ (by simpa using Ne.symm h),
          List.find?_cons_of_neg _ (by rw [hk]; simpa using Ne.symm h)]
        exact ih
      · have hhead : (if (p.1 == k) = true then (k, v) else p) = p := by
          simp [hk]
        rw [List.map_cons, hhead]
        by_cases hk' : p.1 = k'
        · rw [List.find?_cons_of_pos _ (by simp [hk']),
            List.find?_cons_of_pos _ (by simp [hk'])]
        · rw [List.find?_cons_of_neg _ (by simp [hk']),
            List.find?_cons_of_neg _ (by simp [hk'])]
          exact ih

theorem dictLookup_map_reassign_self {α : Type} (d : List (String × α))
    (k : String) (v : α) (hmem : k ∈ d.map Prod.fst) :
    dictLookup (d.map (fun p => if p.1 == k then (k, v) else p)) k = some v := by
  induction d with
  | nil => simp at hmem
  | cons p rest ih =>
      by_cases hk : p.1 = k
      · have hhead : (if (p.1 == k) = true then (k, v) else p) = (k, v) := by
          simp [hk]
        unfold dictLookup
        rw [List.map_cons, hhead, List.find?_cons_of_pos _ (by simp)]
        rfl
      · have hhead : (if (p.1 == k) = true then (k, v) else p) = p := by
          simp [hk]
        have hmem' : k ∈ rest.map Prod.fst := by
          rcases List.mem_map.mp hmem with ⟨q, hq, hqk⟩
          rcases List.mem_cons.mp hq with hq | hq
          · exact absurd (hq ▸ hqk) hk
          · exact List.mem_map.mpr ⟨q, hq, hqk⟩
        unfold dictLookup at ih ⊢
        rw [List.map_cons, hhead, List.find?_cons_of_neg _ (by simp [hk])]
        exact ih hmem'

theorem dictLookup_insert_self {α : Type} (d : List (String × α)) (k : String)
    (v : α) : dictLookup (dictInsert d k v) k = some v := by
  unfold dictInsert
  by_cases hmem : (d.any fun p => p.1 == k) = true
  · rw [if_pos hmem]
    exact dictLookup_map_reassign_self d k v ((dict_any_iff d k).mp hmem)
  · rw [if_neg hmem]
    apply dictLookup_append_right
    intro hc
    exact hmem ((dict_any_iff d k).mpr hc)

theorem dictLookup_insert_ne {α : Type} (d : List (String × α)) {k k' : String}
    (h : k' ≠ k) (v : α) :
    dictLookup (dictInsert d k v) k' = dictLookup d k' := by
  unfold dictInsert
  by_cases hmem : (d.any fun p => p.1 == k) = true
  · rw [if_pos hmem]
    exact dictLookup_map_reassign d h v
  · rw [if_neg hmem]
    exact dictLookup_append_ne d h v

theorem dictPop_keys_sublist {α : Type} (d : List (String × α)) (k : String) :
    ((dictPop d k).map Prod.fst).Sublist (d.map Prod.fst) :=
  List.Sublist.map Prod.fst (List.filter_sublist d)

theorem dictPop_subset {α : Type} (d : List (String × α)) (k : String) :
    ∀ p ∈ dictPop d k, p ∈ d := by
  intro p hp
  exact (List.mem_filter.mp hp).1

/-! ## The dispatcher invariant -/

/-- A live future as created by `dispatch`: its done-callbacks are exactly
`_release_worker` followed by the status update bound to a job whose id is the
table key. -/
def GoodFuture (k : String) (f : Future) : Prop :=
  ∃ job : Job, job.id = k ∧
    f.callbacks = [Callback.releaseWorker, Callback.updateJobStatusFromFuture job]

/-- The dispatcher invariant: table keys are distinct, the worker counter plus
the in-flight count equals the pool size, the counter is non-negative, and
every live future carries the two registered continuations. -/
structure Inv (s : DispatcherState) : Prop where
  nodupKeys : (s.dispatched_processes.map Prod.fst).Nodup
  counter : s.nb_available_workers + s.dispatched_processes.length = s.max_workers
  nonneg : 0 ≤ s.nb_available_workers
  goodFutures : ∀ p ∈ s.dispatched_processes, GoodFuture p.1 p.2

theorem inv_init (maxNbOfWorkers : Option Nat) (cfg : String) :
    Inv (initState maxNbOfWorkers cfg) := by
  constructor <;> simp [initState]

/-- What one completion event does, given the invariant: the two registered
continuations fire in order, so the worker counter is incremented, then the
handle is popped and the job record is updated from the worker result, with the
slot-release side effect strictly preceding the handle-removal and
status-update side effects in the trace. -/
theorem complete_step_spec (serialize : String → String) {s : DispatcherState}
    {jobId : String} {f : Future} (hinv : Inv s)
    (hf : dictLookup s.dispatched_processes jobId = some f) (res : ExecResult) :
    ∃ job : Job, job.id = jobId ∧
      f.callbacks = [Callback.releaseWorker, Callback.updateJobStatusFromFuture job] ∧
      step serialize s (Event.complete jobId res) =
        { s with
          nb_available_workers := s.nb_available_workers + 1
          dispatched_processes := dictPop s.dispatched_processes jobId
          jobs := update_job_status s.jobs jobId res
          trace := s.trace ++ [TraceEvent.slotReleased jobId,
                               TraceEvent.handleRemoved jobId,
                               TraceEvent.statusUpdated jobId] } := by
  obtain ⟨job, hjid, hcbs⟩ := hinv.goodFutures (jobId, f) (dictLookup_mem hf)
  simp only at hjid hcbs
  refine ⟨job, hjid, hcbs, ?_⟩
  simp only [step, hf, hcbs, List.foldl_cons, List.foldl_nil, runCallback, hjid,
    List.append_assoc, List.cons_append, List.nil_append]

theorem inv_step (serialize : String → String) {s : DispatcherState} {e : Event}
    (hinv : Inv s) (hval : validEvent s e) : Inv (step serialize s e) := by
  cases e with
  | dispatchJob job =>
      obtain ⟨hcan, hnd⟩ := hval
      have hnotmem : job.id ∉ s.dispatched_processes.map Prod.fst := by
        intro hmem
        have := (dictLookup_isSome_iff s.dispatched_processes job.id).mpr hmem
        simp [DispatcherState.is_dispatched, this] at hnd
      have hpos : 0 < s.nb_available_workers := by
        simpa [DispatcherState.can_execute, decide_eq_true_iff] using hcan
      have hins := dictInsert_of_not_mem hnotmem
        { wrapper_job_id := job.id
          wrapper_task := job.task
          config_as_string := serialize s.applied_config
          callbacks := [Callback.releaseWorker,
                        Callback.updateJobStatusFromFuture job] }
      constructor
      · simp only [step, dispatch, hins, List.map_append, List.map_cons, List.map_nil]
        refine List.Nodup.append hinv.nodupKeys (List.nodup_singleton _) ?_
        intro a ha hb
        simp only [List.mem_singleton] at hb
        subst hb
        exact hnotmem ha
      · simp only [step, dispatch, hins, List.length_append, List.length_singleton]
        have := hinv.counter
        push_cast at this ⊢
        omega
      · simp only [step, dispatch]
        omega
      · simp only [step, dispatch, hins]
        intro p hp
        rcases List.mem_append.mp hp with h | h
        · exact hinv.goodFutures p h
        · simp only [List.mem_singleton] at h
          subst h
          exact ⟨job, rfl, rfl⟩
  | complete jobId res =>
      have hdisp : s.is_dispatched jobId = true := hval
      obtain ⟨f, hf⟩ := Option.isSome_iff_exists.mp
        (by simpa [DispatcherState.is_dispatched] using hdisp)
      obtain ⟨job, hjid, hcbs, hstep⟩ := complete_step_spec serialize hinv hf res
      have hlen := dictPop_length hinv.nodupKeys hf
      rw [hstep]
      constructor
      · exact (dictPop_keys_sublist _ _).nodup hinv.nodupKeys
      · have hc := hinv.counter
        simp only
        omega
      · have := hinv.nonneg
        simp only
        omega
      · intro p hp
        exact hinv.goodFutures p (dictPop_subset _ _ p hp)
  | mutateConfig c =>
      exact ⟨hinv.nodupKeys, hinv.counter, hinv.nonneg, hinv.goodFutures⟩

theorem inv_run (serialize : String → String) :
    ∀ (es : List Event) (s : DispatcherState),
      Inv s → ValidFrom serialize s es → Inv (run serialize s es)
  | [], _, hinv, _ => hinv
  | e :: es, s, hinv, hval =>
      inv_run serialize es (step serialize s e)
        (inv_step serialize hinv hval.1) hval.2

/-! ## Preservation helpers -/

theorem foldl_runCallback_max_workers (res : ExecResult) (jobId : String) :
    ∀ (cbs : List Callback) (s : DispatcherState),
      (cbs.foldl (runCallback res jobId) s).max_workers = s.max_workers
  | [], _ => rfl
  | cb :: cbs, s => by
      rw [List.foldl_cons, foldl_runCallback_max_workers res jobId cbs]
      cases cb <;> rfl

theorem step_max_workers (serialize : String → String) (s : DispatcherState)
    (e : Event) : (step serialize s e).max_workers = s.max_workers := by
  cases e with
  | dispatchJob job => rfl
  | complete jobId res =>
      simp only [step]
      cases dictLookup s.dispatched_processes jobId with
      | none => rfl
      | some f => exact foldl_runCallback_max_workers res jobId f.callbacks s
  | mutateConfig c => rfl

theorem run_max_workers (serialize : String → String) :
    ∀ (es : List Event) (s : DispatcherState),
      (run serialize s es).max_workers = s.max_workers
  | [], _ => rfl
  | e :: es, s => by
      show (run serialize (step serialize s e) es).max_workers = s.max_workers
      rw [run_max_workers serialize es, step_max_workers]

theorem run_dispatch_only (serialize : String → String) :
    ∀ (es : List Event) (s : DispatcherState),
      (∀ e ∈ es, ∃ j : Job, e = Event.dispatchJob j) →
      (run serialize s es).nb_available_workers =
        s.nb_available_workers - es.length
  | [], s, _ => by simp [run]
  | e :: es, s, h => by
      obtain ⟨j, rfl⟩ := h e (List.mem_cons_self e es)
      have ih := run_dispatch_only serialize es
        (step serialize s (Event.dispatchJob j))
        (fun e' he' => h e' (List.mem_cons_of_mem _ he'))
      show (run serialize (step serialize s (Event.dispatchJob j))
        es).nb_available_workers = _
      rw [ih]
      simp only [step, dispatch, List.length_cons]
      push_cast
      ring

theorem lookup_preserved_step (serialize : String → String) {s : DispatcherState}
    {jid : String} {f : Future} (hinv : Inv s)
    (hf : dictLookup s.dispatched_processes jid = some f) :
    ∀ e : Event, (∀ res, e ≠ Event.complete jid res) →
      (∀ j : Job, e = Event.dispatchJob j → j.id ≠ jid) →
      dictLookup (step serialize s e).dispatched_processes jid = some f := by
  intro e he1 he2
  cases e with
  | dispatchJob j =>
      simp only [step, dispatch]
      rw [dictLookup_insert_ne _ (Ne.symm (he2 j rfl))]
      exact hf
  | complete jid' res =>
      have hne : jid' ≠ jid := by
        intro hc
        subst hc
        exact (he1 res) rfl
      cases hl : dictLookup s.dispatched_processes jid' with
      | none => simpa only [step, hl] using hf
      | some f' =>
          obtain ⟨job', hjid', hcbs', hstep'⟩ := complete_step_spec serialize hinv hl res
          rw [hstep']
          simp only
          rw [dictLookup_pop_ne _ (Ne.symm hne)]
          exact hf
  | mutateConfig c => exact hf

theorem lookup_preserved_run (serialize : String → String) (es : List Event) :
    ∀ (s : DispatcherState) {jid : String} {f : Future},
      Inv s → dictLookup s.dispatched_processes jid = some f →
      ValidFrom serialize s es →
      (∀ e ∈ es, (∀ res, e ≠ Event.complete jid res) ∧
        (∀ j : Job, e = Event.dispatchJob j → j.id ≠ jid)) →
      dictLookup (run serialize s es).dispatched_processes jid = some f := by
  induction es with
  | nil =>
      intro s jid f _ hf _ _
      exact hf
  | cons e es ih =>
      intro s jid f hinv hf hv h
      have h1 := h e (List.mem_cons_self e es)
      have hf' := lookup_preserved_step serialize hinv hf e h1.1 h1.2
      exact ih (step serialize s e) (inv_step serialize hinv hv.1) hf' hv.2
        (fun e' he' => h e' (List.mem_cons_of_mem _ he'))

/-! ## Claims about the dispatcher -/

/-- C1: for every dispatched job, exactly two completion continuations are
attached to its handle (`_release_worker` first,
`_update_job_status_from_future` bound to the job second), and when the worker
finishes — whatever the result — they run in that fixed order: the
available-worker counter is incremented first, and only afterwards is the
handle removed from the dispatched table and the job's status/error updated
from the worker's result, as the trace order shows. -/
theorem dispatched_job_completion_order (serialize : String → String)
    {s : DispatcherState} {jobId : String} {f : Future} (hinv : Inv s)
    (hf : dictLookup s.dispatched_processes jobId = some f) (res : ExecResult) :
    ∃ job : Job, job.id = jobId ∧
      f.callbacks = [Callback.releaseWorker, Callback.updateJobStatusFromFuture job] ∧
      step serialize s (Event.complete jobId res) =
        { s with
          nb_available_workers := s.nb_available_workers + 1
          dispatched_processes := dictPop s.dispatched_processes jobId
          jobs := update_job_status s.jobs jobId res
          trace := s.trace ++ [TraceEvent.slotReleased jobId,
                               TraceEvent.handleRemoved jobId,
                               TraceEvent.statusUpdated jobId] } :=
  complete_step_spec serialize hinv hf res

theorem dispatched_job_completion_order_witness :
    ∃ job : Job, job.id = "JOB_1" ∧
      exFuture1.callbacks = [Callback.releaseWorker, Callback.updateJobStatusFromFuture job] ∧
      step (fun c => c) exState1 (Event.complete "JOB_1" ExecResult.success) =
        { exState1 with
          nb_available_workers := exState1.nb_available_workers + 1
          dispatched_processes := dictPop exState1.dispatched_processes "JOB_1"
          jobs := update_job_status exState1.jobs "JOB_1" ExecResult.success
          trace := exState1.trace ++ [TraceEvent.slotReleased "JOB_1",
                                      TraceEvent.handleRemoved "JOB_1",
                                      TraceEvent.statusUpdated "JOB_1"] } :=
  dispatched_job_completion_order (fun c => c)
    (inv_step (fun c => c) (inv_init (some 2) "cfg") (by decide))
    (by decide) ExecResult.success

/-- C2: `available_workers` starts at `max_workers`; under every event
sequence in which each dispatch satisfies the `can_execute` precondition it
stays in `[0, max_workers]`; and after `N` dispatches with no intervening
completions it equals `max_workers - N`. -/
theorem available_workers_in_range (serialize : String → String)
    (maxNbOfWorkers : Option Nat) (cfg : String) (es : List Event)
    (hv : ValidFrom serialize (initState maxNbOfWorkers cfg) es) :
    (initState maxNbOfWorkers cfg).nb_available_workers =
      ((initState maxNbOfWorkers cfg).max_workers : Int) ∧
    (0 ≤ (run serialize (initState maxNbOfWorkers cfg) es).nb_available_workers ∧
      (run serialize (initState maxNbOfWorkers cfg) es).nb_available_workers ≤
        ((initState maxNbOfWorkers cfg).max_workers : Int)) ∧
    ((∀ e ∈ es, ∃ j : Job, e = Event.dispatchJob j) →
      (run serialize (initState maxNbOfWorkers cfg) es).nb_available_workers =
        ((initState maxNbOfWorkers cfg).max_workers : Int) - es.length) := by
  have hinit : (initState maxNbOfWorkers cfg).nb_available_workers =
      ((initState maxNbOfWorkers cfg).max_workers : Int) := rfl
  have hinv := inv_run serialize es _ (inv_init maxNbOfWorkers cfg) hv
  have hmax := run_max_workers serialize es (initState maxNbOfWorkers cfg)
  refine ⟨hinit, ⟨hinv.nonneg, ?_⟩, ?_⟩
  · have hc := hinv.counter
    rw [hmax] at hc
    omega
  · intro hall
    have hrun := run_dispatch_only serialize es (initState maxNbOfWorkers cfg) hall
    rw [hrun, hinit]

theorem available_workers_in_range_witness :
    ValidFrom (fun c => c) (initState (some 2) "cfg")
      [Event.dispatchJob exJob1, Event.dispatchJob exJob2] ∧
    ((initState (some 2) "cfg").nb_available_workers =
      (((initState (some 2) "cfg").max_workers : Nat) : Int) ∧
    (0 ≤ (run (fun c => c) (initState (some 2) "cfg")
        [Event.dispatchJob exJob1, Event.dispatchJob exJob2]).nb_available_workers ∧
      (run (fun c => c) (initState (some 2) "cfg")
        [Event.dispatchJob exJob1, Event.dispatchJob exJob2]).nb_available_workers ≤
        (((initState (some 2) "cfg").max_workers : Nat) : Int)) ∧
    ((∀ e ∈ [Event.dispatchJob exJob1, Event.dispatchJob exJob2],
        ∃ j : Job, e = Event.dispatchJob j) →
      (run (fun c => c) (initState (some 2) "cfg")
        [Event.dispatchJob exJob1, Event.dispatchJob exJob2]).nb_available_workers =
        (((initState (some 2) "cfg").max_workers : Nat) : Int) -
          ([Event.dispatchJob exJob1, Event.dispatchJob exJob2] : List Event).length)) :=
  ⟨by decide, available_workers_in_range (fun c => c) (some 2) "cfg"
    [Event.dispatchJob exJob1, Event.dispatchJob exJob2] (by decide)⟩

/-- C6: `can_execute()` returns true if and only if `available_workers > 0`;
when it is false the driver loop defers the job — the state and the queue are
left unchanged — and the number of in-flight jobs never exceeds `max_workers`,
so no job is silently executed beyond capacity. -/
theorem can_execute_gates_admission (serialize : String → String)
    (maxNbOfWorkers : Option Nat) (cfg : String) (es : List Event)
    (hv : ValidFrom serialize (initState maxNbOfWorkers cfg) es) :
    ((run serialize (initState maxNbOfWorkers cfg) es).can_execute = true ↔
      0 < (run serialize (initState maxNbOfWorkers cfg) es).nb_available_workers) ∧
    (∀ q : List Job,
      (run serialize (initState maxNbOfWorkers cfg) es).can_execute = false →
      driver_loop_step serialize (run serialize (initState maxNbOfWorkers cfg) es) q =
        (run serialize (initState maxNbOfWorkers cfg) es, q)) ∧
    ((run serialize (initState maxNbOfWorkers cfg) es).dispatched_processes.length ≤
      (initState maxNbOfWorkers cfg).max_workers) := by
  have hinv := inv_run serialize es _ (inv_init maxNbOfWorkers cfg) hv
  have hmax := run_max_workers serialize es (initState maxNbOfWorkers cfg)
  refine ⟨?_, ?_, ?_⟩
  · simp [DispatcherState.can_execute]
  · intro q hfalse
    cases q with
    | nil => rfl
    | cons j rest =>
        simp only [driver_loop_step, hfalse]
        rfl
  · have hc := hinv.counter
    have hn := hinv.nonneg
    rw [hmax] at hc
    omega

theorem can_execute_gates_admission_witness :
    ValidFrom (fun c => c) (initState (some 1) "cfg") [Event.dispatchJob exJob1] ∧
    (((run (fun c => c) (initState (some 1) "cfg")
        [Event.dispatchJob exJob1]).can_execute = true ↔
      0 < (run (fun c => c) (initState (some 1) "cfg")
        [Event.dispatchJob exJob1]).nb_available_workers) ∧
    (∀ q : List Job,
      (run (fun c => c) (initState (some 1) "cfg")
        [Event.dispatchJob exJob1]).can_execute = false →
      driver_loop_step (fun c => c)
          (run (fun c => c) (initState (some 1) "cfg") [Event.dispatchJob exJob1]) q =
        (run (fun c => c) (initState (some 1) "cfg") [Event.dispatchJob exJob1], q)) ∧
    ((run (fun c => c) (initState (some 1) "cfg")
        [Event.dispatchJob exJob1]).dispatched_processes.length ≤
      (initState (some 1) "cfg").max_workers)) :=
  ⟨by decide, can_execute_gates_admission (fun c => c) (some 1) "cfg"
    [Event.dispatchJob exJob1] (by decide)⟩

/-- C7: the execution request handed to the worker carries a serialized
snapshot of the global configuration taken at the moment `dispatch` is called;
afterwards, mutating the global configuration — or running any further valid
events that do not complete or re-dispatch this job — leaves the snapshot seen
by the in-flight job unchanged. -/
theorem config_snapshot_immutable (serialize : String → String)
    (s : DispatcherState) (job : Job) (hinv : Inv s)
    (hcan : s.can_execute = true) (hnd : s.is_dispatched job.id = false) :
    ∃ f : Future,
      dictLookup (step serialize s (Event.dispatchJob job)).dispatched_processes
          job.id = some f ∧
      f.config_as_string = serialize s.applied_config ∧
      (∀ c : String,
        (step serialize (step serialize s (Event.dispatchJob job))
            (Event.mutateConfig c)).applied_config = c ∧
        dictLookup (step serialize (step serialize s (Event.dispatchJob job))
            (Event.mutateConfig c)).dispatched_processes job.id = some f) ∧
      (∀ es2 : List Event,
        ValidFrom serialize (step serialize s (Event.dispatchJob job)) es2 →
        (∀ e ∈ es2, (∀ res, e ≠ Event.complete job.id res) ∧
          (∀ j2 : Job, e = Event.dispatchJob j2 → j2.id ≠ job.id)) →
        dictLookup (run serialize (step serialize s (Event.dispatchJob job))
            es2).dispatched_processes job.id = some f) := by
  have hlook : dictLookup (step serialize s
      (Event.dispatchJob job)).dispatched_processes job.id =
      some { wrapper_job_id := job.id
             wrapper_task := job.task
             config_as_string := serialize s.applied_config
             callbacks := [Callback.releaseWorker,
                           Callback.updateJobStatusFromFuture job] } := by
    simp only [step, dispatch]
    exact dictLookup_insert_self _ _ _
  refine ⟨_, hlook, rfl, ?_, ?_⟩
  · intro c
    exact ⟨rfl, hlook⟩
  · intro es2 hv2 h2
    exact lookup_preserved_run serialize es2 _
      (inv_step serialize hinv ⟨hcan, hnd⟩) hlook hv2 h2

theorem config_snapshot_immutable_witness :
    exState0.can_execute = true ∧ exState0.is_dispatched "JOB_1" = false ∧
    (∃ f : Future,
      dictLookup (step (fun c => c) exState0
          (Event.dispatchJob exJob1)).dispatched_processes "JOB_1" = some f ∧
      f.config_as_string = exState0.applied_config ∧
      (∀ c : String,
        (step (fun c0 => c0) (step (fun c0 => c0) exState0 (Event.dispatchJob exJob1))
            (Event.mutateConfig c)).applied_config = c ∧
        dictLookup (step (fun c0 => c0)
            (step (fun c0 => c0) exState0 (Event.dispatchJob exJob1))
            (Event.mutateConfig c)).dispatched_processes "JOB_1" = some f) ∧
      (∀ es2 : List Event,
        ValidFrom (fun c0 => c0) (step (fun c0 => c0) exState0
          (Event.dispatchJob exJob1)) es2 →
        (∀ e ∈ es2, (∀ res, e ≠ Event.complete "JOB_1" res) ∧
          (∀ j2 : Job, e = Event.dispatchJob j2 → j2.id ≠ "JOB_1")) →
        dictLookup (run (fun c0 => c0)
            (step (fun c0 => c0) exState0 (Event.dispatchJob exJob1))
            es2).dispatched_processes "JOB_1" = some f)) :=
  ⟨by decide, by decide,
    config_snapshot_immutable (fun c0 => c0) exState0 exJob1
      (inv_init (some 2) "cfg") (by decide) (by decide)⟩

/-- C8: at most one live in-flight handle exists per job id (the table keys are
distinct); a valid dispatch registers exactly one handle under the job's id,
making `is_dispatched` true; and a completion removes the handle exactly once
(the key count drops from one to zero), after which `is_dispatched` is false. -/
theorem handle_registered_and_removed_once (serialize : String → String)
    (s : DispatcherState) (hinv : Inv s) :
    (s.dispatched_processes.map Prod.fst).Nodup ∧
    (∀ job : Job, s.can_execute = true → s.is_dispatched job.id = false →
      (step serialize s (Event.dispatchJob job)).is_dispatched job.id = true ∧
      ((step serialize s (Event.dispatchJob job)).dispatched_processes.map
        Prod.fst).count job.id = 1) ∧
    (∀ (jobId : String) (res : ExecResult), s.is_dispatched jobId = true →
      (s.dispatched_processes.map Prod.fst).count jobId = 1 ∧
      (step serialize s (Event.complete jobId res)).is_dispatched jobId = false ∧
      ((step serialize s (Event.complete jobId res)).dispatched_processes.map
        Prod.fst).count jobId = 0) := by
  refine ⟨hinv.nodupKeys, ?_, ?_⟩
  · intro job hcan hnd
    have hnotmem : job.id ∉ s.dispatched_processes.map Prod.fst := by
      intro hmem
      have hs := (dictLookup_isSome_iff s.dispatched_processes job.id).mpr hmem
      simp [DispatcherState.is_dispatched, hs] at hnd
    constructor
    · simp only [DispatcherState.is_dispatched, step, dispatch]
      rw [dictLookup_insert_self]
      rfl
    · simp only [step, dispatch,
        dictInsert_of_not_mem hnotmem, List.map_append, List.map_cons, List.map_nil]
      rw [List.count_append]
      rw [List.count_eq_zero_of_not_mem hnotmem]
      simp
  · intro jobId res hd
    obtain ⟨f, hf⟩ := Option.isSome_iff_exists.mp
      (by simpa [DispatcherState.is_dispatched] using hd)
    obtain ⟨job, hjid, hcbs, hstep⟩ := complete_step_spec serialize hinv hf res
    have hmem : jobId ∈ s.dispatched_processes.map Prod.fst :=
      List.mem_map.mpr ⟨(jobId, f), dictLookup_mem hf, rfl⟩
    refine ⟨List.count_eq_one_of_mem hinv.nodupKeys hmem, ?_, ?_⟩
    · rw [hstep]
      simp only [DispatcherState.is_dispatched]
      rw [dictLookup_pop_self]
      rfl
    · rw [hstep]
      simp only
      apply List.count_eq_zero_of_not_mem
      intro hmem'
      have hs := (dictLookup_isSome_iff _ jobId).mpr hmem'
      rw [dictLookup_pop_self] at hs
      simp at hs

theorem handle_registered_and_removed_once_witness :
    ((exState1.dispatched_processes.map Prod.fst).Nodup ∧
    (∀ job : Job, exState1.can_execute = true →
      exState1.is_dispatched job.id = false →
      (step (fun c => c) exState1 (Event.dispatchJob job)).is_dispatched job.id = true ∧
      ((step (fun c => c) exState1 (Event.dispatchJob job)).dispatched_processes.map
        Prod.fst).count job.id = 1) ∧
    (∀ (jobId : String) (res : ExecResult), exState1.is_dispatched jobId = true →
      (exState1.dispatched_processes.map Prod.fst).count jobId = 1 ∧
      (step (fun c => c) exState1 (Event.complete jobId res)).is_dispatched jobId = false ∧
      ((step (fun c => c) exState1 (Event.complete jobId res)).dispatched_processes.map
        Prod.fst).count jobId = 0)) :=
  handle_registered_and_removed_once (fun c => c) exState1
    (inv_step (fun c => c) (inv_init (some 2) "cfg") (by decide))

/-! ## Graph construction lemmas -/

theorem addNode_edges (g : Graph) (n : Node) : (addNode g n).edges = g.edges := by
  unfold addNode
  split <;> rfl

theorem mem_addNode_iff (g : Graph) (n m : Node) :
    m ∈ (addNode g n).nodes ↔ m ∈ g.nodes ∨ m = n := by
  unfold addNode
  split
  · rename_i h
    constructor
    · exact Or.inl
    · rintro (hm | rfl)
      · exact hm
      · exact h
  · simp [List.mem_append]

theorem addNode_nodes_nodup {g : Graph} (h : g.nodes.Nodup) (n : Node) :
    (addNode g n).nodes.Nodup := by
  unfold addNode
  split
  · exact h
  · rename_i hn
    refine List.Nodup.append h (List.nodup_singleton n) ?_
    intro a ha hb
    simp only [List.mem_singleton] at hb
    subst hb
    exact hn ha

theorem addEdge_nodes (g : Graph) (u v : Node) :
    (addEdge g u v).nodes = (addNode (addNode g u) v).nodes := by
  unfold addEdge
  dsimp only
  split <;> rfl

theorem mem_addEdge_nodes_iff (g : Graph) (u v m : Node) :
    m ∈ (addEdge g u v).nodes ↔ m ∈ g.nodes ∨ m = u ∨ m = v := by
  rw [addEdge_nodes, mem_addNode_iff, mem_addNode_iff, or_assoc]

theorem addEdge_nodes_nodup {g : Graph} (h : g.nodes.Nodup) (u v : Node) :
    (addEdge g u v).nodes.Nodup := by
  rw [addEdge_nodes]
  exact addNode_nodes_nodup (addNode_nodes_nodup h u) v

theorem mem_addEdge_edges_iff (g : Graph) (u v : Node) (e : Node × Node) :
    e ∈ (addEdge g u v).edges ↔ e ∈ g.edges ∨ e = (u, v) := by
  unfold addEdge
  dsimp only
  split
  · rename_i hmem
    simp only [addNode_edges] at hmem ⊢
    constructor
    · exact Or.inl
    · rintro (he | rfl)
      · exact he
      · exact hmem
  · rename_i hmem
    simp only [addNode_edges] at hmem ⊢
    simp [List.mem_append]

theorem addEdge_edges_nodup {g : Graph} (h : g.edges.Nodup) (u v : Node) :
    (addEdge g u v).edges.Nodup := by
  unfold addEdge
  dsimp only
  split
  · rename_i hmem
    simp only [addNode_edges]
    exact h
  · rename_i hmem
    simp only [addNode_edges] at hmem ⊢
    refine List.Nodup.append h (List.nodup_singleton _) ?_
    intro a ha hb
    simp only [List.mem_singleton] at hb
    subst hb
    exact hmem ha

theorem edgesValid_addNode {g : Graph} (h : EdgesValid g) (n : Node) :
    EdgesValid (addNode g n) := by
  intro e he
  rw [addNode_edges] at he
  obtain ⟨h1, h2⟩ := h e he
  exact ⟨(mem_addNode_iff g n e.1).mpr (Or.inl h1),
         (mem_addNode_iff g n e.2).mpr (Or.inl h2)⟩

theorem edgesValid_addEdge {g : Graph} (h : EdgesValid g) (u v : Node) :
    EdgesValid (addEdge g u v) := by
  intro e he
  rw [mem_addEdge_edges_iff] at he
  rcases he with he | rfl
  · obtain ⟨h1, h2⟩ := h e he
    exact ⟨(mem_addEdge_nodes_iff g u v e.1).mpr (Or.inl h1),
           (mem_addEdge_nodes_iff g u v e.2).mpr (Or.inl h2)⟩
  · exact ⟨(mem_addEdge_nodes_iff g u v u).mpr (Or.inr (Or.inl rfl)),
           (mem_addEdge_nodes_iff g u v v).mpr (Or.inr (Or.inr rfl))⟩

/-! ## Folding `addEdge` over a list -/

theorem mem_foldl_addEdge_edges {β : Type} (f1 f2 : β → Node) :
    ∀ (l : List β) (g : Graph) (e : Node × Node),
      e ∈ (l.foldl (fun g0 b => addEdge g0 (f1 b) (f2 b)) g).edges ↔
        e ∈ g.edges ∨ ∃ b ∈ l, e = (f1 b, f2 b)
  | [], g, e => by simp
  | b0 :: l, g, e => by
      rw [List.foldl_cons, mem_foldl_addEdge_edges f1 f2 l, mem_addEdge_edges_iff]
      constructor
      · rintro ((he | rfl) | ⟨b, hb, rfl⟩)
        · exact Or.inl he
        · exact Or.inr ⟨b0, List.mem_cons_self _ _, rfl⟩
        · exact Or.inr ⟨b, List.mem_cons_of_mem _ hb, rfl⟩
      · rintro (he | ⟨b, hb, rfl⟩)
        · exact Or.inl (Or.inl he)
        · rcases List.mem_cons.mp hb with rfl | hb
          · exact Or.inl (Or.inr rfl)
          · exact Or.inr ⟨b, hb, rfl⟩

theorem foldl_addEdge_nodes_mono {β : Type} (f1 f2 : β → Node) :
    ∀ (l : List β) (g : Graph) {m : Node}, m ∈ g.nodes →
      m ∈ (l.foldl (fun g0 b => addEdge g0 (f1 b) (f2 b)) g).nodes
  | [], _, _, h => h
  | b0 :: l, g, m, h => by
      rw [List.foldl_cons]
      exact foldl_addEdge_nodes_mono f1 f2 l _
        ((mem_addEdge_nodes_iff g (f1 b0) (f2 b0) m).mpr (Or.inl h))

theorem foldl_addEdge_nodes_sub {β : Type} (f1 f2 : β → Node) :
    ∀ (l : List β) (g : Graph) {m : Node},
      m ∈ (l.foldl (fun g0 b => addEdge g0 (f1 b) (f2 b)) g).nodes →
      m ∈ g.nodes ∨ ∃ b ∈ l, m = f1 b ∨ m = f2 b
  | [], _, _, h => Or.inl h
  | b0 :: l, g, m, h => by
      rw [List.foldl_cons] at h
      rcases foldl_addEdge_nodes_sub f1 f2 l _ h with h | ⟨b, hb, hm⟩
      · rcases (mem_addEdge_nodes_iff g (f1 b0) (f2 b0) m).mp h with h | h | h
        · exact Or.inl h
        · exact Or.inr ⟨b0, List.mem_cons_self _ _, Or.inl h⟩
        · exact Or.inr ⟨b0, List.mem_cons_self _ _, Or.inr h⟩
      · exact Or.inr ⟨b, List.mem_cons_of_mem _ hb, hm⟩

theorem foldl_addEdge_head_mem {β : Type} (f1 f2 : β → Node) (b0 : β)
    (l : List β) (g : Graph) :
    f1 b0 ∈ ((b0 :: l).foldl (fun g0 b => addEdge g0 (f1 b) (f2 b)) g).nodes ∧
    f2 b0 ∈ ((b0 :: l).foldl (fun g0 b => addEdge g0 (f1 b) (f2 b)) g).nodes := by
  rw [List.foldl_cons]
  constructor
  · exact foldl_addEdge_nodes_mono f1 f2 l _
      ((mem_addEdge_nodes_iff g (f1 b0) (f2 b0) (f1 b0)).mpr (Or.inr (Or.inl rfl)))
  · exact foldl_addEdge_nodes_mono f1 f2 l _
      ((mem_addEdge_nodes_iff g (f1 b0) (f2 b0) (f2 b0)).mpr (Or.inr (Or.inr rfl)))

theorem foldl_addEdge_edgesValid {β : Type} (f1 f2 : β → Node) :
    ∀ (l : List β) (g : Graph), EdgesValid g →
      EdgesValid (l.foldl (fun g0 b => addEdge g0 (f1 b) (f2 b)) g)
  | [], _, h => h
  | b0 :: l, g, h => by
      rw [List.foldl_cons]
      exact foldl_addEdge_edgesValid f1 f2 l _ (edgesValid_addEdge h _ _)

theorem foldl_addEdge_nodes_nodup {β : Type} (f1 f2 : β → Node) :
    ∀ (l : List β) (g : Graph), g.nodes.Nodup →
      (l.foldl (fun g0 b => addEdge g0 (f1 b) (f2 b)) g).nodes.Nodup
  | [], _, h => h
  | b0 :: l, g, h => by
      rw [List.foldl_cons]
      exact foldl_addEdge_nodes_nodup f1 f2 l _ (addEdge_nodes_nodup h _ _)

theorem foldl_addEdge_edges_nodup {β : Type} (f1 f2 : β → Node) :
    ∀ (l : List β) (g : Graph), g.edges.Nodup →
      (l.foldl (fun g0 b => addEdge g0 (f1 b) (f2 b)) g).edges.Nodup
  | [], _, h => h
  | b0 :: l, g, h => by
      rw [List.foldl_cons]
      exact foldl_addEdge_edges_nodup f1 f2 l _ (addEdge_edges_nodup h _ _)

/-! ## Lemmas about `addInputEdges`, `addOutputEdges`, `addTaskToDag` -/

theorem mem_addInputEdges_edges (g : Graph) (t : Task) (e : Node × Node) :
    e ∈ (addInputEdges g t).edges ↔
      e ∈ g.edges ∨ ∃ d ∈ t.input, e = (Node.dataNode d, Node.task t) :=
  mem_foldl_addEdge_edges (fun p => Node.dataNode p) (fun _ => Node.task t)
    t.input g e

theorem mem_addOutputEdges_edges (g : Graph) (t : Task) (e : Node × Node) :
    e ∈ (addOutputEdges g t).edges ↔
      e ∈ g.edges ∨ ∃ d ∈ t.output, e = (Node.task t, Node.dataNode d) :=
  mem_foldl_addEdge_edges (fun _ => Node.task t) (fun s0 => Node.dataNode s0)
    t.output g e

theorem addInputEdges_nodes_mono (g : Graph) (t : Task) {m : Node}
    (h : m ∈ g.nodes) : m ∈ (addInputEdges g t).nodes :=
  foldl_addEdge_nodes_mono (fun p => Node.dataNode p) (fun _ => Node.task t)
    t.input g h

theorem addOutputEdges_nodes_mono (g : Graph) (t : Task) {m : Node}
    (h : m ∈ g.nodes) : m ∈ (addOutputEdges g t).nodes :=
  foldl_addEdge_nodes_mono (fun _ => Node.task t) (fun s0 => Node.dataNode s0)
    t.output g h

theorem addInputEdges_nodes_sub (g : Graph) (t : Task) {m : Node}
    (h : m ∈ (addInputEdges g t).nodes) :
    m ∈ g.nodes ∨ (∃ d ∈ t.input, m = Node.dataNode d) ∨ m = Node.task t := by
  rcases foldl_addEdge_nodes_sub (fun p => Node.dataNode p) (fun _ => Node.task t)
    t.input g h with h | ⟨d, hd, hm | hm⟩
  · exact Or.inl h
  · exact Or.inr (Or.inl ⟨d, hd, hm⟩)
  · exact Or.inr (Or.inr hm)

theorem addOutputEdges_nodes_sub (g : Graph) (t : Task) {m : Node}
    (h : m ∈ (addOutputEdges g t).nodes) :
    m ∈ g.nodes ∨ (∃ d ∈ t.output, m = Node.dataNode d) ∨ m = Node.task t := by
  rcases foldl_addEdge_nodes_sub (fun _ => Node.task t) (fun s0 => Node.dataNode s0)
    t.output g h with h | ⟨d, hd, hm | hm⟩
  · exact Or.inl h
  · exact Or.inr (Or.inr hm)
  · exact Or.inr (Or.inl ⟨d, hd, hm⟩)

theorem task_mem_addInputEdges_of_ne (g : Graph) (t : Task)
    (hne : t.input ≠ []) : Node.task t ∈ (addInputEdges g t).nodes := by
  unfold addInputEdges
  rcases hin : t.input with _ | ⟨d0, l⟩
  · exact absurd hin hne
  · exact (foldl_addEdge_head_mem (fun p => Node.dataNode p) (fun _ => Node.task t)
      d0 l g).2

theorem task_mem_addOutputEdges_of_ne (g : Graph) (t : Task)
    (hne : t.output ≠ []) : Node.task t ∈ (addOutputEdges g t).nodes := by
  unfold addOutputEdges
  rcases hout : t.output with _ | ⟨s0, l⟩
  · exact absurd hout hne
  · exact (foldl_addEdge_head_mem (fun _ => Node.task t) (fun s1 => Node.dataNode s1)
      s0 l g).1

theorem addInputEdges_empty (g : Graph) (t : Task) (h : t.input = []) :
    addInputEdges g t = g := by
  unfold addInputEdges
  rw [h]
  rfl

theorem task_mem_addTaskToDag (g : Graph) (t : Task) :
    Node.task t ∈ (addTaskToDag g t).nodes := by
  unfold addTaskToDag
  split
  · exact (mem_addNode_iff _ _ _).mpr (Or.inr rfl)
  · rename_i hcond
    by_cases hin : t.input = []
    · have hout : t.output ≠ [] := by
        intro hout
        rw [hin, hout] at hcond
        simp at hcond
      rw [addInputEdges_empty g t hin]
      exact task_mem_addOutputEdges_of_ne g t hout
    · exact addOutputEdges_nodes_mono _ t (task_mem_addInputEdges_of_ne g t hin)

theorem mem_addTaskToDag_edges (g : Graph) (t : Task) (e : Node × Node) :
    e ∈ (addTaskToDag g t).edges ↔ e ∈ g.edges ∨ TaskEdge t e := by
  have hchain : e ∈ (addOutputEdges (addInputEdges g t) t).edges ↔
      e ∈ g.edges ∨ TaskEdge t e := by
    rw [mem_addOutputEdges_edges, mem_addInputEdges_edges, TaskEdge]
    constructor
    · rintro ((he | hin) | hout)
      · exact Or.inl he
      · exact Or.inr (Or.inl hin)
      · exact Or.inr (Or.inr hout)
    · rintro (he | hin | hout)
      · exact Or.inl (Or.inl he)
      · exact Or.inl (Or.inr hin)
      · exact Or.inr hout
  unfold addTaskToDag
  split
  · rw [addNode_edges]
    exact hchain
  · exact hchain

theorem addTaskToDag_nodes_mono (g : Graph) (t : Task) {m : Node}
    (h : m ∈ g.nodes) : m ∈ (addTaskToDag g t).nodes := by
  unfold addTaskToDag
  split
  · exact (mem_addNode_iff _ _ _).mpr
      (Or.inl (addOutputEdges_nodes_mono _ t (addInputEdges_nodes_mono g t h)))
  · exact addOutputEdges_nodes_mono _ t (addInputEdges_nodes_mono g t h)

theorem addTaskToDag_nodes_sub (g : Graph) (t : Task) {m : Node}
    (h : m ∈ (addTaskToDag g t).nodes) :
    m ∈ g.nodes ∨ m = Node.task t ∨ (∃ d ∈ t.input, m = Node.dataNode d) ∨
      (∃ d ∈ t.output, m = Node.dataNode d) := by
  have hchain : m ∈ (addOutputEdges (addInputEdges g t) t).nodes →
      m ∈ g.nodes ∨ m = Node.task t ∨ (∃ d ∈ t.input, m = Node.dataNode d) ∨
        (∃ d ∈ t.output, m = Node.dataNode d) := by
    intro h2
    rcases addOutputEdges_nodes_sub _ t h2 with h3 | h3 | h3
    · rcases addInputEdges_nodes_sub g t h3 with h4 | h4 | h4
      · exact Or.inl h4
      · exact Or.inr (Or.inr (Or.inl h4))
      · exact Or.inr (Or.inl h4)
    · exact Or.inr (Or.inr (Or.inr h3))
    · exact Or.inr (Or.inl h3)
  unfold addTaskToDag at h
  split at h
  · rcases (mem_addNode_iff _ _ _).mp h with h | h
    · exact hchain h
    · exact Or.inr (Or.inl h)
  · exact hchain h

theorem foldl_addEdge_mem_of_mem {β : Type} (f1 f2 : β → Node) :
    ∀ (l : List β) (g : Graph) {b : β}, b ∈ l →
      f1 b ∈ (l.foldl (fun g0 b1 => addEdge g0 (f1 b1) (f2 b1)) g).nodes ∧
      f2 b ∈ (l.foldl (fun g0 b1 => addEdge g0 (f1 b1) (f2 b1)) g).nodes
  | [], _, _, hb => absurd hb (List.not_mem_nil _)
  | b0 :: l, g, b, hb => by
      rcases List.mem_cons.mp hb with rfl | hb
      · exact foldl_addEdge_head_mem f1 f2 b l g
      · rw [List.foldl_cons]
        exact foldl_addEdge_mem_of_mem f1 f2 l _ hb

theorem dataNode_mem_addInputEdges (g : Graph) (t : Task) {d : DataNode}
    (hd : d ∈ t.input) : Node.dataNode d ∈ (addInputEdges g t).nodes :=
  (foldl_addEdge_mem_of_mem (fun p => Node.dataNode p) (fun _ => Node.task t)
    t.input g hd).1

theorem task_mem_addInputEdges_of_mem (g : Graph) (t : Task) {d : DataNode}
    (hd : d ∈ t.input) : Node.task t ∈ (addInputEdges g t).nodes :=
  (foldl_addEdge_mem_of_mem (fun p => Node.dataNode p) (fun _ => Node.task t)
    t.input g hd).2

theorem dataNode_mem_addOutputEdges (g : Graph) (t : Task) {d : DataNode}
    (hd : d ∈ t.output) : Node.dataNode d ∈ (addOutputEdges g t).nodes :=
  (foldl_addEdge_mem_of_mem (fun _ => Node.task t) (fun s1 => Node.dataNode s1)
    t.output g hd).2

theorem addTaskToDag_nodes_of_stage (g : Graph) (t : Task) {m : Node}
    (h : m ∈ (addOutputEdges (addInputEdges g t) t).nodes) :
    m ∈ (addTaskToDag g t).nodes := by
  unfold addTaskToDag
  split
  · exact (mem_addNode_iff _ _ _).mpr (Or.inl h)
  · exact h

theorem addTaskToDag_edgesValid {g : Graph} (hg : EdgesValid g) (t : Task) :
    EdgesValid (addTaskToDag g t) := by
  intro e he
  rw [mem_addTaskToDag_edges] at he
  rcases he with he | he
  · obtain ⟨h1, h2⟩ := hg e he
    exact ⟨addTaskToDag_nodes_mono g t h1, addTaskToDag_nodes_mono g t h2⟩
  · rcases he with ⟨d, hd, rfl⟩ | ⟨d, hd, rfl⟩
    · exact ⟨addTaskToDag_nodes_of_stage g t
        (addOutputEdges_nodes_mono _ t (dataNode_mem_addInputEdges g t hd)),
      task_mem_addTaskToDag g t⟩
    · exact ⟨task_mem_addTaskToDag g t,
      addTaskToDag_nodes_of_stage g t (dataNode_mem_addOutputEdges _ t hd)⟩

theorem addTaskToDag_nodes_nodup {g : Graph} (h : g.nodes.Nodup) (t : Task) :
    (addTaskToDag g t).nodes.Nodup := by
  have hstage : (addOutputEdges (addInputEdges g t) t).nodes.Nodup := by
    unfold addOutputEdges addInputEdges
    exact foldl_addEdge_nodes_nodup (fun _ => Node.task t) (fun s1 => Node.dataNode s1)
      t.output _ (foldl_addEdge_nodes_nodup (fun p => Node.dataNode p)
        (fun _ => Node.task t) t.input g h)
  unfold addTaskToDag
  split
  · exact addNode_nodes_nodup hstage _
  · exact hstage

theorem addTaskToDag_edges_nodup {g : Graph} (h : g.edges.Nodup) (t : Task) :
    (addTaskToDag g t).edges.Nodup := by
  have hstage : (addOutputEdges (addInputEdges g t) t).edges.Nodup := by
    unfold addOutputEdges addInputEdges
    exact foldl_addEdge_edges_nodup (fun _ => Node.task t) (fun s1 => Node.dataNode s1)
      t.output _ (foldl_addEdge_edges_nodup (fun p => Node.dataNode p)
        (fun _ => Node.task t) t.input g h)
  unfold addTaskToDag
  split
  · rw [addNode_edges]
    exact hstage
  · exact hstage

/-! ## Lemmas about `buildDag` -/

theorem mem_foldl_addTask_edges :
    ∀ (ts : List Task) (g : Graph) (e : Node × Node),
      e ∈ (ts.foldl addTaskToDag g).edges ↔ e ∈ g.edges ∨ ∃ t ∈ ts, TaskEdge t e
  | [], g, e => by simp
  | t0 :: ts, g, e => by
      rw [List.foldl_cons, mem_foldl_addTask_edges ts, mem_addTaskToDag_edges]
      constructor
      · rintro ((he | ht) | ⟨t, ht, hte⟩)
        · exact Or.inl he
        · exact Or.inr ⟨t0, List.mem_cons_self _ _, ht⟩
        · exact Or.inr ⟨t, List.mem_cons_of_mem _ ht, hte⟩
      · rintro (he | ⟨t, ht, hte⟩)
        · exact Or.inl (Or.inl he)
        · rcases List.mem_cons.mp ht with rfl | ht
          · exact Or.inl (Or.inr hte)
          · exact Or.inr ⟨t, ht, hte⟩

theorem mem_buildDag_edges (ts : List Task) (e : Node × Node) :
    e ∈ (buildDag ts).edges ↔ ∃ t ∈ ts, TaskEdge t e := by
  unfold buildDag
  rw [mem_foldl_addTask_edges]
  simp

theorem foldl_addTask_nodes_mono :
    ∀ (ts : List Task) (g : Graph) {m : Node}, m ∈ g.nodes →
      m ∈ (ts.foldl addTaskToDag g).nodes
  | [], _, _, h => h
  | t0 :: ts, g, m, h => by
      rw [List.foldl_cons]
      exact foldl_addTask_nodes_mono ts _ (addTaskToDag_nodes_mono g t0 h)

theorem task_mem_foldl_addTask :
    ∀ (ts : List Task) (g : Graph) {t : Task}, t ∈ ts →
      Node.task t ∈ (ts.foldl addTaskToDag g).nodes
  | [], _, _, h => absurd h (List.not_mem_nil _)
  | t0 :: ts, g, t, h => by
      rw [List.foldl_cons]
      rcases List.mem_cons.mp h with rfl | h
      · exact foldl_addTask_nodes_mono ts _ (task_mem_addTaskToDag g t)
      · exact task_mem_foldl_addTask ts _ h

theorem task_mem_buildDag {ts : List Task} {t : Task} (h : t ∈ ts) :
    Node.task t ∈ (buildDag ts).nodes :=
  task_mem_foldl_addTask ts _ h

theorem foldl_addTask_nodes_sub :
    ∀ (ts : List Task) (g : Graph) {m : Node},
      m ∈ (ts.foldl addTaskToDag g).nodes →
      m ∈ g.nodes ∨ ∃ t ∈ ts, m = Node.task t ∨
        (∃ d ∈ t.input, m = Node.dataNode d) ∨ (∃ d ∈ t.output, m = Node.dataNode d)
  | [], _, _, h => Or.inl h
  | t0 :: ts, g, m, h => by
      rw [List.foldl_cons] at h
      rcases foldl_addTask_nodes_sub ts _ h with h | ⟨t, ht, hm⟩
      · rcases addTaskToDag_nodes_sub g t0 h with h | h
        · exact Or.inl h
        · exact Or.inr ⟨t0, List.mem_cons_self _ _, h⟩
      · exact Or.inr ⟨t, List.mem_cons_of_mem _ ht, hm⟩

theorem buildDag_task_mem_iff (ts : List Task) (t' : Task) :
    Node.task t' ∈ (buildDag ts).nodes ↔ t' ∈ ts := by
  constructor
  · intro h
    rcases foldl_addTask_nodes_sub ts _ h with h | ⟨t, ht, hm | hm | hm⟩
    · simp at h
    · obtain rfl : t' = t := by simpa using hm
      exact ht
    · obtain ⟨d, _, hm⟩ := hm
      exact absurd hm (by simp)
    · obtain ⟨d, _, hm⟩ := hm
      exact absurd hm (by simp)
  · exact task_mem_buildDag

theorem buildDag_nodes_nodup (ts : List Task) : (buildDag ts).nodes.Nodup := by
  unfold buildDag
  have hgen : ∀ (l : List Task) (g : Graph), g.nodes.Nodup →
      (l.foldl addTaskToDag g).nodes.Nodup := by
    intro l
    induction l with
    | nil => exact fun g h => h
    | cons t0 l ih =>
        intro g h
        rw [List.foldl_cons]
        exact ih _ (addTaskToDag_nodes_nodup h t0)
  exact hgen ts _ (by simp)

theorem buildDag_edges_nodup (ts : List Task) : (buildDag ts).edges.Nodup := by
  unfold buildDag
  have hgen : ∀ (l : List Task) (g : Graph), g.edges.Nodup →
      (l.foldl addTaskToDag g).edges.Nodup := by
    intro l
    induction l with
    | nil => exact fun g h => h
    | cons t0 l ih =>
        intro g h
        rw [List.foldl_cons]
        exact ih _ (addTaskToDag_edges_nodup h t0)
  exact hgen ts _ (by simp)

theorem buildDag_edgesValid (ts : List Task) : EdgesValid (buildDag ts) := by
  unfold buildDag
  have hgen : ∀ (l : List Task) (g : Graph), EdgesValid g →
      EdgesValid (l.foldl addTaskToDag g) := by
    intro l
    induction l with
    | nil => exact fun g h => h
    | cons t0 l ih =>
        intro g h
        rw [List.foldl_cons]
        exact ih _ (addTaskToDag_edgesValid h t0)
  intro e he
  exact hgen ts _ (by intro e' he'; simp at he') e he

/-! ## Lemmas about Kahn peeling (`nextGen`, `topoGensAux`) -/

theorem mem_nextGen {rem : List Node} {edges : List (Node × Node)} {n : Node} :
    n ∈ nextGen rem edges ↔
      n ∈ rem ∧ ∀ e ∈ edges, e.1 ∈ rem → e.2 ≠ n := by
  unfold nextGen
  rw [List.mem_filter]
  simp only [decide_eq_true_eq]

theorem nextGen_subset {rem : List Node} {edges : List (Node × Node)} {n : Node}
    (h : n ∈ nextGen rem edges) : n ∈ rem :=
  (mem_nextGen.mp h).1

theorem topoGensAux_nil (edges : List (Node × Node)) (fuel : Nat) :
    topoGensAux edges fuel [] = some [] := by
  cases fuel <;> rfl

theorem topoGensAux_zero_cons (edges : List (Node × Node)) (n : Node)
    (rest : List Node) : topoGensAux edges 0 (n :: rest) = none := rfl

theorem topoGensAux_succ_cons (edges : List (Node × Node)) (fuel : Nat)
    (n : Node) (rest : List Node) :
    topoGensAux edges (fuel + 1) (n :: rest) =
      (if (nextGen (n :: rest) edges).isEmpty then none
       else
         match topoGensAux edges fuel
           ((n :: rest).filter (fun m => decide (m ∉ nextGen (n :: rest) edges))) with
         | none => none
         | some gens => some (nextGen (n :: rest) edges :: gens)) := rfl

theorem topoGensAux_success {edges : List (Node × Node)} {fuel : Nat} {n : Node}
    {rest : List Node} {gens : List (List Node)}
    (h : topoGensAux edges (fuel + 1) (n :: rest) = some gens) :
    nextGen (n :: rest) edges ≠ [] ∧
    ∃ gens', gens = nextGen (n :: rest) edges :: gens' ∧
      topoGensAux edges fuel
        ((n :: rest).filter (fun m => decide (m ∉ nextGen (n :: rest) edges))) =
        some gens' := by
  rw [topoGensAux_succ_cons] at h
  by_cases hemp : (nextGen (n :: rest) edges).isEmpty
  · rw [if_pos hemp] at h
    exact absurd h (by simp)
  · rw [if_neg hemp] at h
    refine ⟨by simpa [List.isEmpty_iff] using hemp, ?_⟩
    cases hrec : topoGensAux edges fuel
        ((n :: rest).filter (fun m => decide (m ∉ nextGen (n :: rest) edges))) with
    | none =>
        rw [hrec] at h
        exact absurd h (by simp)
    | some gens' =>
        rw [hrec] at h
        simp only [Option.some.injEq] at h
        exact ⟨gens', h.symm, rfl⟩

theorem filter_not_nextGen (edges : List (Node × Node)) (rem : List Node) :
    rem.filter (fun m => decide (m ∉ nextGen rem edges)) =
      rem.filter (fun m =>
        !(decide (∀ e ∈ edges, e.1 ∈ rem → e.2 ≠ m))) := by
  apply List.filter_congr
  intro x hx
  by_cases hpx : (decide (∀ e ∈ edges, e.1 ∈ rem → e.2 ≠ x)) = true
  · have hxg : x ∈ nextGen rem edges := List.mem_filter.mpr ⟨hx, hpx⟩
    simp [hxg, hpx]
  · have hxg : x ∉ nextGen rem edges := fun hc => hpx (List.mem_filter.mp hc).2
    simp [hxg, hpx]

theorem topoGensAux_perm (edges : List (Node × Node)) :
    ∀ (fuel : Nat) (rem : List Node) (gens : List (List Node)),
      topoGensAux edges fuel rem = some gens → rem.Perm gens.flatten
  | fuel, [], gens, h => by
      rw [topoGensAux_nil] at h
      simp only [Option.some.injEq] at h
      subst h
      exact List.Perm.refl _
  | 0, n :: rest, gens, h => by
      rw [topoGensAux_zero_cons] at h
      exact absurd h (by simp)
  | fuel + 1, n :: rest, gens, h => by
      obtain ⟨hne, gens', rfl, hrec⟩ := topoGensAux_success h
      have ih := topoGensAux_perm edges fuel _ _ hrec
      have hsplit := List.filter_append_perm
        (fun m => decide (∀ e ∈ edges, e.1 ∈ (n :: rest) → e.2 ≠ m)) (n :: rest)
      rw [filter_not_nextGen] at ih
      have h1 : (n :: rest).Perm
          (nextGen (n :: rest) edges ++
            (n :: rest).filter (fun m =>
              !(decide (∀ e ∈ edges, e.1 ∈ (n :: rest) → e.2 ≠ m)))) := hsplit.symm
      have h2 : (nextGen (n :: rest) edges ++
            (n :: rest).filter (fun m =>
              !(decide (∀ e ∈ edges, e.1 ∈ (n :: rest) → e.2 ≠ m)))).Perm
          (nextGen (n :: rest) edges :: gens').flatten := by
        simp only [List.flatten_cons]
        exact List.Perm.append_left _ ih
      exact h1.trans h2

theorem topoGensAux_ordered (edges : List (Node × Node)) :
    ∀ (fuel : Nat) (rem : List Node) (gens : List (List Node)),
      topoGensAux edges fuel rem = some gens →
      ∀ (u v : Node), (u, v) ∈ edges → u ∈ rem →
        ∀ (i j : Fin gens.length), u ∈ gens.get i → v ∈ gens.get j →
          i.val < j.val
  | fuel, [], gens, h => by
      rw [topoGensAux_nil] at h
      simp only [Option.some.injEq] at h
      subst h
      intro u v he hu
      exact absurd hu (List.not_mem_nil _)
  | 0, n :: rest, gens, h => by
      rw [topoGensAux_zero_cons] at h
      exact absurd h (by simp)
  | fuel + 1, n :: rest, gens, h => by
      obtain ⟨hne, gens', rfl, hrec⟩ := topoGensAux_success h
      intro u v he hu i j hui hvj
      rcases j with ⟨jv, hj⟩
      rcases i with ⟨iv, hi⟩
      simp only [List.length_cons] at hi hj
      cases jv with
      | zero =>
          have hv0 : v ∈ nextGen (n :: rest) edges := hvj
          exact absurd rfl ((mem_nextGen.mp hv0).2 (u, v) he hu)
      | succ jv =>
          cases iv with
          | zero =>
              show 0 < jv + 1
              omega
          | succ iv =>
              have hui' : u ∈ gens'.get ⟨iv, by omega⟩ := hui
              have hvj' : v ∈ gens'.get ⟨jv, by omega⟩ := hvj
              have humem : u ∈ (n :: rest).filter
                  (fun m => decide (m ∉ nextGen (n :: rest) edges)) := by
                rw [(topoGensAux_perm edges fuel _ _ hrec).mem_iff]
                exact List.mem_flatten.mpr
                  ⟨_, List.get_mem gens' _ (by omega : iv < gens'.length), hui'⟩
              have hlt := topoGensAux_ordered edges fuel _ _ hrec u v he humem
                ⟨iv, by omega⟩ ⟨jv, by omega⟩ hui' hvj'
              show iv + 1 < jv + 1
              exact Nat.succ_lt_succ hlt

theorem nextGen_ne_nil (edges : List (Node × Node)) (rem : List Node)
    (hne : rem ≠ [])
    (hnc : ¬ ∃ n : Node, Relation.TransGen (fun a b => (a, b) ∈ edges) n n) :
    nextGen rem edges ≠ [] := by
  have hirr : ∀ a : {n // n ∈ rem},
      ¬ Relation.TransGen (fun a b : {n // n ∈ rem} => (a.val, b.val) ∈ edges) a a := by
    intro a ha
    exact hnc ⟨a.val,
      Relation.TransGen.lift Subtype.val (fun _ _ hx => hx) ha⟩
  haveI hfin : Finite {n // n ∈ rem} := rem.finite_toSet.to_subtype
  haveI : IsTrans {n // n ∈ rem}
      (Relation.TransGen (fun a b : {n // n ∈ rem} => (a.val, b.val) ∈ edges)) :=
    ⟨fun _ _ _ => Relation.TransGen.trans⟩
  haveI : IsIrrefl {n // n ∈ rem}
      (Relation.TransGen (fun a b : {n // n ∈ rem} => (a.val, b.val) ∈ edges)) :=
    ⟨hirr⟩
  have hwfT := Finite.wellFounded_of_trans_of_irrefl
    (Relation.TransGen (fun a b : {n // n ∈ rem} => (a.val, b.val) ∈ edges))
  have hwf : WellFounded (fun a b : {n // n ∈ rem} => (a.val, b.val) ∈ edges) :=
    Subrelation.wf (fun hx => Relation.TransGen.single hx) hwfT
  obtain ⟨x0, hx0⟩ := List.exists_mem_of_ne_nil rem hne
  obtain ⟨m, -, hmin⟩ := hwf.has_min Set.univ ⟨⟨x0, hx0⟩, Set.mem_univ _⟩
  have hmem : m.val ∈ nextGen rem edges := by
    rw [mem_nextGen]
    refine ⟨m.property, ?_⟩
    intro e he h1 heq
    refine hmin ⟨e.1, h1⟩ (Set.mem_univ _) ?_
    show (e.1, m.val) ∈ edges
    rw [← heq]
    exact he
  exact List.ne_nil_of_mem hmem

theorem topoGensAux_complete (edges : List (Node × Node))
    (hnc : ¬ ∃ n : Node, Relation.TransGen (fun a b => (a, b) ∈ edges) n n) :
    ∀ (fuel : Nat) (rem : List Node), rem.length ≤ fuel →
      (topoGensAux edges fuel rem).isSome
  | fuel, [], _ => by
      rw [topoGensAux_nil]
      rfl
  | 0, n :: rest, hlen => by
      simp at hlen
  | fuel + 1, n :: rest, hlen => by
      rw [topoGensAux_succ_cons]
      have hgen := nextGen_ne_nil edges (n :: rest) (by simp) hnc
      rw [if_neg (by simpa [List.isEmpty_iff] using hgen)]
      have hlen' :
          ((n :: rest).filter
            (fun m => decide (m ∉ nextGen (n :: rest) edges))).length ≤ fuel := by
        have hsplit := (List.filter_append_perm
          (fun m => decide (∀ e ∈ edges, e.1 ∈ (n :: rest) → e.2 ≠ m))
          (n :: rest)).length_eq
        rw [List.length_append] at hsplit
        have hgenlen : 1 ≤ (nextGen (n :: rest) edges).length := by
          rcases hg : nextGen (n :: rest) edges with _ | ⟨a, l⟩
          · exact absurd hg hgen
          · simp
        rw [filter_not_nextGen]
        simp only [List.length_cons] at hsplit hlen
        show ((n :: rest).filter (fun m =>
          !(decide (∀ e ∈ edges, e.1 ∈ (n :: rest) → e.2 ≠ m)))).length ≤ fuel
        have : nextGen (n :: rest) edges =
            (n :: rest).filter
              (fun m => decide (∀ e ∈ edges, e.1 ∈ (n :: rest) → e.2 ≠ m)) := rfl
        rw [this] at hgenlen
        omega
      have hrec := topoGensAux_complete edges hnc fuel _ hlen'
      obtain ⟨gens', hgens'⟩ := Option.isSome_iff_exists.mp hrec
      rw [hgens']
      rfl

/-! ## Graph-level consequences -/

theorem topoGens_isSome_of_not_hasCycle {g : Graph} (hnc : ¬ HasCycle g) :
    (topoGens g).isSome :=
  topoGensAux_complete g.edges hnc g.nodes.length g.nodes le_rfl

theorem topoGens_perm {g : Graph} {gens : List (List Node)}
    (h : topoGens g = some gens) : g.nodes.Perm gens.flatten :=
  topoGensAux_perm g.edges g.nodes.length g.nodes gens h

theorem topoGens_ordered {g : Graph} {gens : List (List Node)}
    (h : topoGens g = some gens) {u v : Node} (he : (u, v) ∈ g.edges)
    (hu : u ∈ g.nodes) (i j : Fin gens.length) (hui : u ∈ gens.get i)
    (hvj : v ∈ gens.get j) : i.val < j.val :=
  topoGensAux_ordered g.edges g.nodes.length g.nodes gens h u v he hu i j hui hvj

theorem topoGens_transGen_lt {g : Graph} (hval : EdgesValid g)
    {gens : List (List Node)} (h : topoGens g = some gens) :
    ∀ {u v : Node}, Relation.TransGen (edgeRel g) u v →
      ∀ (i j : Fin gens.length), u ∈ gens.get i → v ∈ gens.get j →
        i.val < j.val := by
  intro u v htg
  induction htg with
  | single he =>
      intro i j hui hvj
      exact topoGens_ordered h he ((hval _ he).1) i j hui hvj
  | tail hmid he ih =>
      rename_i b c
      intro i j hui hvj
      have hbnodes : b ∈ g.nodes := (hval _ he).1
      have hbflat : b ∈ gens.flatten := (topoGens_perm h).mem_iff.mp hbnodes
      obtain ⟨gen, hgen, hb⟩ := List.mem_flatten.mp hbflat
      obtain ⟨k, hk⟩ := List.mem_iff_get.mp hgen
      have h1 := ih i k hui (hk ▸ hb)
      have h2 := topoGens_ordered h he hbnodes k j (hk ▸ hb) hvj
      omega

theorem not_hasCycle_of_topoGens_some {g : Graph} (hval : EdgesValid g)
    {gens : List (List Node)} (h : topoGens g = some gens) : ¬ HasCycle g := by
  rintro ⟨n, htg⟩
  have hn : n ∈ g.nodes := by
    cases htg with
    | single he => exact (hval _ he).2
    | tail hmid he => exact (hval _ he).2
  have hflat := (topoGens_perm h).mem_iff.mp hn
  obtain ⟨gen, hgen, hmem⟩ := List.mem_flatten.mp hflat
  obtain ⟨i, hi⟩ := List.mem_iff_get.mp hgen
  exact absurd (topoGens_transGen_lt hval h htg i i (hi ▸ hmem) (hi ▸ hmem))
    (lt_irrefl _)

theorem topoGens_none_of_hasCycle {g : Graph} (hval : EdgesValid g)
    (hc : HasCycle g) : topoGens g = none := by
  cases h : topoGens g with
  | none => rfl
  | some gens => exact absurd hc (not_hasCycle_of_topoGens_some hval h)

/-! ## Counting generations containing a node -/

theorem countP_mem_le_one_of_disjoint (n : Node) :
    ∀ (gens : List (List Node)), gens.Pairwise List.Disjoint →
      gens.countP (fun gen => decide (n ∈ gen)) ≤ 1
  | [], _ => by simp
  | gen :: gens, hpw => by
      rw [List.countP_cons]
      obtain ⟨hd, hpw'⟩ := List.pairwise_cons.mp hpw
      by_cases hn : n ∈ gen
      · have h0 : gens.countP (fun g0 => decide (n ∈ g0)) = 0 := by
          rw [List.countP_eq_zero]
          intro g0 hg0
          simp only [decide_eq_true_eq]
          intro hng0
          exact hd g0 hg0 hn hng0
        rw [h0]
        simp [hn]
      · have hle := countP_mem_le_one_of_disjoint n gens hpw'
        simpa [hn] using hle

theorem countP_mem_eq_one {gens : List (List Node)} (hnd : gens.flatten.Nodup)
    {n : Node} (hmem : n ∈ gens.flatten) :
    gens.countP (fun gen => decide (n ∈ gen)) = 1 := by
  have hdisj := (List.nodup_flatten.mp hnd).2
  have hle := countP_mem_le_one_of_disjoint n gens hdisj
  have hpos : 0 < gens.countP (fun gen => decide (n ∈ gen)) := by
    rw [List.countP_pos_iff]
    obtain ⟨gen, hgen, hm⟩ := List.mem_flatten.mp hmem
    exact ⟨gen, hgen, by simpa using hm⟩
  omega

/-! ## The alternation check -/

theorem altCheck_all_tasks :
    ∀ (b : Bool) (gens : List (List Node)), altCheck b gens = true →
      ∀ gen ∈ gens, gen.any Node.isTask = true → ∀ n ∈ gen, n.isTask = true
  | _, [], _, gen, hgen => absurd hgen (List.not_mem_nil _)
  | b, gen0 :: gens, h, gen, hgen => by
      have hsplit : ((gen0.all fun node => if b then node.isDataNode else node.isTask) &&
          altCheck (!b) gens) = true := h
      obtain ⟨h1, h2⟩ := (Bool.and_eq_true _ _).mp hsplit
      intro hany n hn
      rcases List.mem_cons.mp hgen with rfl | hgen'
      · cases b with
        | false =>
            have := List.all_eq_true.mp h1 n hn
            simpa using this
        | true =>
            obtain ⟨n0, hn0, hn0t⟩ := List.any_eq_true.mp hany
            have hdn := List.all_eq_true.mp h1 n0 hn0
            cases n0 <;> simp_all [Node.isTask, Node.isDataNode]
      · exact altCheck_all_tasks (!b) gens h2 gen hgen' hany n hn

/-! ## Dependency freedom across generations -/

theorem no_dep_between_gens {ts : List Task} {gens : List (List Node)}
    (h : topoGens (buildDag ts) = some gens) :
    ∀ (i j : Fin gens.length), i.val ≤ j.val →
      ∀ t u : Task, Node.task t ∈ gens.get i → Node.task u ∈ gens.get j →
        ¬ DependsOn t u := by
  rintro i j hij t u ht hu ⟨d, hdout, hdin⟩
  have htn : Node.task t ∈ (buildDag ts).nodes := by
    rw [(topoGens_perm h).mem_iff]
    exact List.mem_flatten.mpr ⟨_, List.get_mem _ _ _, ht⟩
  have hun : Node.task u ∈ (buildDag ts).nodes := by
    rw [(topoGens_perm h).mem_iff]
    exact List.mem_flatten.mpr ⟨_, List.get_mem _ _ _, hu⟩
  have hts : t ∈ ts := (buildDag_task_mem_iff ts t).mp htn
  have hus : u ∈ ts := (buildDag_task_mem_iff ts u).mp hun
  have he1 : (Node.task u, Node.dataNode d) ∈ (buildDag ts).edges :=
    (mem_buildDag_edges ts _).mpr ⟨u, hus, Or.inr ⟨d, hdout, rfl⟩⟩
  have he2 : (Node.dataNode d, Node.task t) ∈ (buildDag ts).edges :=
    (mem_buildDag_edges ts _).mpr ⟨t, hts, Or.inl ⟨d, hdin, rfl⟩⟩
  have hdn : Node.dataNode d ∈ (buildDag ts).nodes :=
    (buildDag_edgesValid ts _ he1).2
  obtain ⟨gend, hgend, hd⟩ := List.mem_flatten.mp ((topoGens_perm h).mem_iff.mp hdn)
  obtain ⟨k, hk⟩ := List.mem_iff_get.mp hgend
  have l1 : j.val < k.val := topoGens_ordered h he1 hun j k hu (hk ▸ hd)
  have l2 : k.val < i.val := topoGens_ordered h he2 hdn k i (hk ▸ hd) ht
  omega

/-! ## Claims about the pipeline scheduler and validator -/

/-- C3 (amended): for every pipeline whose dependency graph admits topological
generations (acyclic graph — on a cyclic one `get_sorted_tasks` raises),
`get_sorted_tasks()` returns exactly the generations containing at least one
Task; no task of a returned generation depends on the output of a task of the
same or of a later returned generation; every task of the pipeline appears in
exactly one returned generation; and whenever the generations alternate kinds
starting from DataNodes (the consistency condition), every element of every
returned generation is a Task.  (As stated over all pipelines the claim fails:
a returned generation can contain a DataNode, see the counterexample.) -/
theorem get_sorted_tasks_spec (config_id : String) (ts : List Task)
    (gens0 : List (List Node))
    (h : topoGens (buildDag ((tasksDict ts).map Prod.snd)) = some gens0) :
    (mkPipeline config_id ts).sorted_tasks =
      some (gens0.filter (fun gen => gen.any Node.isTask)) ∧
    (∀ gen ∈ gens0.filter (fun gen => gen.any Node.isTask),
      ∀ t u : Task, Node.task t ∈ gen → Node.task u ∈ gen → ¬ DependsOn t u) ∧
    (gens0.filter (fun gen => gen.any Node.isTask)).Pairwise
      (fun g1 g2 => ∀ t u : Task, Node.task t ∈ g1 → Node.task u ∈ g2 →
        ¬ DependsOn t u) ∧
    (∀ t ∈ (tasksDict ts).map Prod.snd,
      (gens0.filter (fun gen => gen.any Node.isTask)).countP
        (fun gen => decide (Node.task t ∈ gen)) = 1) ∧
    (altCheck true gens0 = true →
      ∀ gen ∈ gens0.filter (fun gen => gen.any Node.isTask),
        ∀ n ∈ gen, n.isTask = true) := by
  refine ⟨?_, ?_, ?_, ?_, ?_⟩
  · show (topoGens (buildDag ((tasksDict ts).map Prod.snd))).map _ = _
    rw [h]
    rfl
  · intro gen hgen t u ht hu
    have hgen0 : gen ∈ gens0 := List.mem_of_mem_filter hgen
    obtain ⟨i, hi⟩ := List.mem_iff_get.mp hgen0
    exact no_dep_between_gens h i i le_rfl t u (hi ▸ ht) (hi ▸ hu)
  · refine List.Pairwise.sublist (List.filter_sublist gens0) ?_
    rw [List.pairwise_iff_get]
    intro i j hij t u ht hu
    exact no_dep_between_gens h i j (le_of_lt hij) t u ht hu
  · intro t hts
    have htn : Node.task t ∈ (buildDag ((tasksDict ts).map Prod.snd)).nodes :=
      task_mem_buildDag hts
    have hflat : Node.task t ∈ gens0.flatten := (topoGens_perm h).mem_iff.mp htn
    have hnd : gens0.flatten.Nodup :=
      (topoGens_perm h).nodup (buildDag_nodes_nodup _)
    have hone := countP_mem_eq_one hnd hflat
    rw [List.countP_filter]
    rw [List.countP_congr _]
    · exact hone
    · intro gen hgen
      simp only [Bool.and_eq_true, decide_eq_true_eq]
      constructor
      · exact fun hx => hx.1
      · intro hx
        exact ⟨hx, List.any_eq_true.mpr ⟨Node.task t, hx, rfl⟩⟩
  · intro halt gen hgen n hn
    exact altCheck_all_tasks true gens0 halt gen (List.mem_of_mem_filter hgen)
      ((List.mem_filter.mp hgen).2) n hn

theorem get_sorted_tasks_spec_witness :
    topoGens (buildDag ((tasksDict [exTask1]).map Prod.snd)) =
      some [[Node.dataNode exDataNodeA], [Node.task exTask1],
            [Node.dataNode exDataNodeB]] ∧
    ((mkPipeline "p" [exTask1]).sorted_tasks =
      some ([[Node.dataNode exDataNodeA], [Node.task exTask1],
             [Node.dataNode exDataNodeB]].filter
        (fun gen => gen.any Node.isTask)) ∧
    (∀ gen ∈ [[Node.dataNode exDataNodeA], [Node.task exTask1],
              [Node.dataNode exDataNodeB]].filter
        (fun gen => gen.any Node.isTask),
      ∀ t u : Task, Node.task t ∈ gen → Node.task u ∈ gen → ¬ DependsOn t u) ∧
    ([[Node.dataNode exDataNodeA], [Node.task exTask1],
      [Node.dataNode exDataNodeB]].filter
        (fun gen => gen.any Node.isTask)).Pairwise
      (fun g1 g2 => ∀ t u : Task, Node.task t ∈ g1 → Node.task u ∈ g2 →
        ¬ DependsOn t u) ∧
    (∀ t ∈ (tasksDict [exTask1]).map Prod.snd,
      ([[Node.dataNode exDataNodeA], [Node.task exTask1],
        [Node.dataNode exDataNodeB]].filter
          (fun gen => gen.any Node.isTask)).countP
        (fun gen => decide (Node.task t ∈ gen)) = 1) ∧
    (altCheck true [[Node.dataNode exDataNodeA], [Node.task exTask1],
                    [Node.dataNode exDataNodeB]] = true →
      ∀ gen ∈ [[Node.dataNode exDataNodeA], [Node.task exTask1],
               [Node.dataNode exDataNodeB]].filter
          (fun gen => gen.any Node.isTask),
        ∀ n ∈ gen, n.isTask = true)) :=
  ⟨by decide, get_sorted_tasks_spec "p" [exTask1]
    [[Node.dataNode exDataNodeA], [Node.task exTask1],
     [Node.dataNode exDataNodeB]] (by decide)⟩

/-- C3 counterexample: the claim as stated fails — for the pipeline holding
task `t1` (`a → t1 → b`) together with the isolated task `t2`, the first
returned generation of `get_sorted_tasks()` contains the DataNode `a`
alongside `t2`, so not every element of every returned generation is a Task. -/
theorem get_sorted_tasks_mixed_generation :
    ∃ gens, (mkPipeline "p" [exTask1, exTaskIso]).sorted_tasks = some gens ∧
      ¬ (∀ gen ∈ gens, ∀ n ∈ gen, n.isTask = true) :=
  ⟨[[Node.dataNode exDataNodeA, Node.task exTaskIso], [Node.task exTask1]],
    by decide, by decide⟩

/-- C4: a task collection whose induced graph is a valid alternating DAG (no
cycle, and the topological generations alternate kinds starting from a
DataNode generation) yields a pipeline whose stored `is_consistent` flag is
true; a cycle in the induced graph yields `is_consistent = false`.  In both
cases the verdict is only the flag stored at construction by the total
constructor `mkPipeline` — the validation raises nothing. -/
theorem consistency_flag (config_id : String) (ts : List Task) :
    ((¬ HasCycle (buildDag ((tasksDict ts).map Prod.snd)) ∧
      (∀ gens, topoGens (buildDag ((tasksDict ts).map Prod.snd)) = some gens →
        altCheck true gens = true)) →
      (mkPipeline config_id ts).is_consistent = true) ∧
    (HasCycle (buildDag ((tasksDict ts).map Prod.snd)) →
      (mkPipeline config_id ts).is_consistent = false) := by
  constructor
  · rintro ⟨hnc, halt⟩
    obtain ⟨gens, hg⟩ :=
      Option.isSome_iff_exists.mp (topoGens_isSome_of_not_hasCycle hnc)
    show is_consistent_check ((tasksDict ts).map Prod.snd) = true
    simp only [is_consistent_check, is_directed_acyclic_graph, hg,
      Option.isSome_some, Bool.not_true, Bool.false_eq_true, if_false]
    exact halt gens hg
  · intro hc
    have hnone := topoGens_none_of_hasCycle (buildDag_edgesValid _) hc
    show is_consistent_check ((tasksDict ts).map Prod.snd) = false
    simp [is_consistent_check, is_directed_acyclic_graph, hnone]

theorem consistency_flag_witness :
    ((¬ HasCycle (buildDag ((tasksDict [exTask1]).map Prod.snd)) ∧
      (∀ gens, topoGens (buildDag ((tasksDict [exTask1]).map Prod.snd)) = some gens →
        altCheck true gens = true)) ∧
      (mkPipeline "p" [exTask1]).is_consistent = true) ∧
    (HasCycle (buildDag ((tasksDict [exTaskCyc1, exTaskCyc2]).map Prod.snd)) ∧
      (mkPipeline "q" [exTaskCyc1, exTaskCyc2]).is_consistent = false) := by
  have hsome : topoGens (buildDag ((tasksDict [exTask1]).map Prod.snd)) =
      some [[Node.dataNode exDataNodeA], [Node.task exTask1],
            [Node.dataNode exDataNodeB]] := by decide
  have hnc : ¬ HasCycle (buildDag ((tasksDict [exTask1]).map Prod.snd)) :=
    not_hasCycle_of_topoGens_some (buildDag_edgesValid _) hsome
  have halt : ∀ gens,
      topoGens (buildDag ((tasksDict [exTask1]).map Prod.snd)) = some gens →
      altCheck true gens = true := by
    intro gens hg
    rw [hsome] at hg
    simp only [Option.some.injEq] at hg
    subst hg
    decide
  have hcyc : HasCycle (buildDag ((tasksDict [exTaskCyc1, exTaskCyc2]).map Prod.snd)) :=
    ⟨Node.dataNode exDataNodeA,
      Relation.TransGen.head
        (show (Node.dataNode exDataNodeA, Node.task exTaskCyc1) ∈
          (buildDag ((tasksDict [exTaskCyc1, exTaskCyc2]).map Prod.snd)).edges
          by decide)
        (Relation.TransGen.head
          (show (Node.task exTaskCyc1, Node.dataNode exDataNodeB) ∈
            (buildDag ((tasksDict [exTaskCyc1, exTaskCyc2]).map Prod.snd)).edges
            by decide)
          (Relation.TransGen.head
            (show (Node.dataNode exDataNodeB, Node.task exTaskCyc2) ∈
              (buildDag ((tasksDict [exTaskCyc1, exTaskCyc2]).map Prod.snd)).edges
              by decide)
            (Relation.TransGen.single
              (show (Node.task exTaskCyc2, Node.dataNode exDataNodeA) ∈
                (buildDag ((tasksDict [exTaskCyc1, exTaskCyc2]).map Prod.snd)).edges
                by decide))))⟩
  exact ⟨⟨⟨hnc, halt⟩, (consistency_flag "p" [exTask1]).1 ⟨hnc, halt⟩⟩,
    ⟨hcyc, (consistency_flag "q" [exTaskCyc1, exTaskCyc2]).2 hcyc⟩⟩

/-- C5: the graph built from a task collection contains, for each task,
exactly one directed edge from each of its input DataNodes to the task and one
from the task to each of its output DataNodes, and no other edges (the edge
list has no duplicates and its members are exactly the task edges); a task
with neither inputs nor outputs is present as an isolated node touched by no
edge. -/
theorem build_dag_edges_exact (ts : List Task) :
    (∀ e : Node × Node, e ∈ (buildDag ts).edges ↔ ∃ t ∈ ts, TaskEdge t e) ∧
    (buildDag ts).edges.Nodup ∧
    (∀ t ∈ ts, t.input = [] → t.output = [] →
      Node.task t ∈ (buildDag ts).nodes ∧
      ∀ e ∈ (buildDag ts).edges, e.1 ≠ Node.task t ∧ e.2 ≠ Node.task t) := by
  refine ⟨mem_buildDag_edges ts, buildDag_edges_nodup ts, ?_⟩
  intro t hts hin hout
  refine ⟨task_mem_buildDag hts, ?_⟩
  intro e he
  obtain ⟨t', ht', hte⟩ := (mem_buildDag_edges ts e).mp he
  rcases hte with ⟨d, hd, rfl⟩ | ⟨d, hd, rfl⟩
  · constructor
    · simp
    · intro hc
      obtain rfl : t' = t := by simpa using hc
      rw [hin] at hd
      exact absurd hd (List.not_mem_nil _)
  · constructor
    · intro hc
      obtain rfl : t' = t := by simpa using hc
      rw [hout] at hd
      exact absurd hd (List.not_mem_nil _)
    · simp

theorem build_dag_edges_exact_witness :
    Node.task exTaskIso ∈ (buildDag [exTask1, exTaskIso]).nodes ∧
    ∀ e ∈ (buildDag [exTask1, exTaskIso]).edges,
      e.1 ≠ Node.task exTaskIso ∧ e.2 ≠ Node.task exTaskIso :=
  (build_dag_edges_exact [exTask1, exTaskIso]).2.2 exTaskIso (by decide) rfl rfl

/-- C9: a pipeline containing a task with neither inputs nor outputs has
`is_consistent = false`, because that isolated task sits in topological
generation 0, which the validator requires to contain only DataNodes. -/
theorem isolated_task_flags_inconsistent (config_id : String) (ts : List Task)
    (t : Task) (hmem : t ∈ (tasksDict ts).map Prod.snd)
    (hin : t.input = []) (hout : t.output = []) :
    (mkPipeline config_id ts).is_consistent = false ∧
    (∀ gens0, topoGens (buildDag ((tasksDict ts).map Prod.snd)) = some gens0 →
      ∃ gen0 rest, gens0 = gen0 :: rest ∧ Node.task t ∈ gen0) := by
  have htn : Node.task t ∈ (buildDag ((tasksDict ts).map Prod.snd)).nodes :=
    task_mem_buildDag hmem
  have hgen0 : ∀ gens0,
      topoGens (buildDag ((tasksDict ts).map Prod.snd)) = some gens0 →
      ∃ gen0 rest, gens0 = gen0 :: rest ∧ Node.task t ∈ gen0 := by
    intro gens0 hg
    obtain ⟨n0, rest0, hnodes⟩ :=
      List.exists_cons_of_ne_nil (List.ne_nil_of_mem htn)
    have hg' : topoGensAux (buildDag ((tasksDict ts).map Prod.snd)).edges
        (rest0.length + 1) (n0 :: rest0) = some gens0 := by
      have : topoGens (buildDag ((tasksDict ts).map Prod.snd)) =
          topoGensAux (buildDag ((tasksDict ts).map Prod.snd)).edges
            (n0 :: rest0).length (n0 :: rest0) := by
        unfold topoGens
        rw [hnodes]
      rw [this] at hg
      exact hg
    obtain ⟨hne, gens', rfl, hrec⟩ := topoGensAux_success hg'
    refine ⟨_, gens', rfl, ?_⟩
    rw [mem_nextGen]
    constructor
    · rw [← hnodes]
      exact htn
    · intro e he h1 heq
      obtain ⟨t', ht', hte⟩ :=
        (mem_buildDag_edges ((tasksDict ts).map Prod.snd) e).mp he
      rcases hte with ⟨d, hd, rfl⟩ | ⟨d, hd, rfl⟩
      · obtain rfl : t' = t := by simpa using heq
        rw [hin] at hd
        exact absurd hd (List.not_mem_nil _)
      · exact absurd heq (by simp)
  refine ⟨?_, hgen0⟩
  show is_consistent_check ((tasksDict ts).map Prod.snd) = false
  cases hg : topoGens (buildDag ((tasksDict ts).map Prod.snd)) with
  | none => simp [is_consistent_check, is_directed_acyclic_graph, hg]
  | some gens0 =>
      obtain ⟨gen0, rest, rfl, hmemgen⟩ := hgen0 gens0 hg
      simp only [is_consistent_check, is_directed_acyclic_graph, hg,
        Option.isSome_some, Bool.not_true, Bool.false_eq_true, if_false]
      have hfalse : (gen0.all fun node =>
          if true then node.isDataNode else node.isTask) = false := by
        rw [List.all_eq_false]
        exact ⟨Node.task t, hmemgen, by simp [Node.isDataNode]⟩
      show ((gen0.all fun node => if true then node.isDataNode else node.isTask) &&
        altCheck (!true) rest) = false
      rw [hfalse]
      rfl

theorem isolated_task_flags_inconsistent_witness :
    exTaskIso ∈ (tasksDict [exTask1, exTaskIso]).map Prod.snd ∧
    ((mkPipeline "p" [exTask1, exTaskIso]).is_consistent = false ∧
    (∀ gens0,
      topoGens (buildDag ((tasksDict [exTask1, exTaskIso]).map Prod.snd)) =
        some gens0 →
      ∃ gen0 rest, gens0 = gen0 :: rest ∧ Node.task exTaskIso ∈ gen0)) :=
  ⟨by decide,
    isolated_task_flags_inconsistent "p" [exTask1, exTaskIso] exTaskIso
      (by decide) rfl rfl⟩

/-! ## The task dictionary of the pipeline constructor -/

theorem dictInsert_keys_nodup {α : Type} {d : List (String × α)}
    (h : (d.map Prod.fst).Nodup) (k : String) (v : α) :
    ((dictInsert d k v).map Prod.fst).Nodup := by
  unfold dictInsert
  by_cases hmem : (d.any fun p => p.1 == k) = true
  · rw [if_pos hmem]
    have hkeys : (d.map (fun p => if p.1 == k then (k, v) else p)).map Prod.fst =
        d.map Prod.fst := by
      rw [List.map_map]
      apply List.map_congr_left
      intro p hp
      by_cases hk : p.1 = k
      · simp [hk]
      · simp [hk]
    rw [hkeys]
    exact h
  · rw [if_neg hmem, List.map_append]
    refine List.Nodup.append h (by simp) ?_
    intro a ha hb
    simp only [List.map_cons, List.map_nil, List.mem_singleton] at hb
    subst hb
    exact hmem ((dict_any_iff d a).mpr ha)

theorem tasksDict_keys_nodup (ts : List Task) :
    ((tasksDict ts).map Prod.fst).Nodup := by
  have hgen : ∀ (l : List Task) (d : List (String × Task)),
      (d.map Prod.fst).Nodup →
      ((l.foldl (fun d0 t => dictInsert d0 t.config_id t) d).map Prod.fst).Nodup := by
    intro l
    induction l with
    | nil => exact fun _ h => h
    | cons t l ih =>
        intro d h
        rw [List.foldl_cons]
        exact ih _ (dictInsert_keys_nodup h _ _)
  exact hgen ts [] (by simp)

theorem foldl_dictInsert_lookup (k : String) :
    ∀ (ts : List Task) (d : List (String × Task)),
      dictLookup (ts.foldl (fun d0 t => dictInsert d0 t.config_id t) d) k =
        (match (ts.filter (fun t => t.config_id == k)).getLast? with
         | some t => some t
         | none => dictLookup d k)
  | [], d => by simp
  | t0 :: ts, d => by
      rw [List.foldl_cons, foldl_dictInsert_lookup k ts]
      by_cases hk : t0.config_id = k
      · rw [List.filter_cons_of_pos (by simp [hk])]
        cases hfe : (ts.filter (fun t => t.config_id == k)).getLast? with
        | some t =>
            have hne : ts.filter (fun t => t.config_id == k) ≠ [] := by
              intro hnil
              rw [hnil] at hfe
              simp at hfe
            obtain ⟨a, l', hal⟩ := List.exists_cons_of_ne_nil hne
            rw [hal] at hfe ⊢
            rw [List.getLast?_cons_cons, hfe]
        | none =>
            have hnil : ts.filter (fun t => t.config_id == k) = [] :=
              List.getLast?_eq_none_iff.mp hfe
            rw [hnil, List.getLast?_singleton]
            rw [← hk]
            exact dictLookup_insert_self d t0.config_id t0
      · rw [List.filter_cons_of_neg (by simp [hk])]
        cases hfe : (ts.filter (fun t => t.config_id == k)).getLast? with
        | some t => rfl
        | none => exact dictLookup_insert_ne d (fun hc => hk hc.symm) t0

theorem tasksDict_lookup (ts : List Task) (k : String) :
    dictLookup (tasksDict ts) k =
      (ts.filter (fun t => t.config_id == k)).getLast? := by
  unfold tasksDict
  rw [foldl_dictInsert_lookup]
  cases hfe : (ts.filter (fun t => t.config_id == k)).getLast? with
  | some t => rfl
  | none => simp [dictLookup]

/-- C10: the pipeline's task mapping is keyed by `config_id`: looking up a key
returns the last task of the constructor list carrying that `config_id`, so
when two or more tasks share a `config_id` only the last in list order is
kept; earlier duplicates are silently dropped (the mapping's keys stay
distinct and construction is total), never rejected.  The `tasks` setter
builds the same dictionary. -/
theorem duplicate_config_id_last_wins (config_id : String) (ts : List Task)
    (k : String) :
    dictLookup (mkPipeline config_id ts).tasks k =
      (ts.filter (fun t => t.config_id == k)).getLast? ∧
    ((mkPipeline config_id ts).tasks.map Prod.fst).Nodup :=
  ⟨tasksDict_lookup ts k, tasksDict_keys_nodup ts⟩

end Taipy
